import Mathlib

/-!
Verification development for the cube-parse aggregation engine.

The Rust sources (`src/utils.rs`, `src/internal_peripheral.rs`, `src/main.rs`)
are shallowly embedded below.  Ordered maps (`BTreeMap`) are modelled by
association lists that keep at most one binding per key (the key order of the
Rust maps only influences iteration order; where an ordering claim is at stake
the comparison function itself is modelled and verified).  Ordered sets
(`BTreeSet`) are modelled by duplicate-free lists.  Reference-counted leaf
sets (`Rc<AfTreeMcus>`) are modelled by plain values, which is adequate
because the program only ever compares them by value.  `eprintln!` warnings
are modelled as explicit warning values; a Rust panic is modelled as the
`.error` case of `Except`.
-/

/-! ## Character classes (ASCII, as used by the regexes on this data) -/

def isUpperDash (c : Char) : Bool := (('A' ≤ c ∧ c ≤ 'Z') : Bool) || c = '-'

def isAsciiAlpha (c : Char) : Bool :=
  (('A' ≤ c ∧ c ≤ 'Z') : Bool) || (('a' ≤ c ∧ c ≤ 'z') : Bool)

def isWordChar (c : Char) : Bool := isAsciiAlpha c || c.isDigit || c = '_'

def isWordDash (c : Char) : Bool := isWordChar c || c = '-'

def isAlnumChar (c : Char) : Bool := isAsciiAlpha c || c.isDigit

/-- Split a character run satisfying `p` off the front of a list. -/
def takeRun (p : Char → Bool) : List Char → List Char × List Char
  | [] => ([], [])
  | c :: cs =>
    if p c then
      let r := takeRun p cs
      (c :: r.1, r.2)
    else ([], c :: cs)

theorem takeRun_append (p : Char → Bool) (cs : List Char) :
    (takeRun p cs).1 ++ (takeRun p cs).2 = cs := by
  induction cs with
  | nil => rfl
  | cons c cs ih =>
    simp only [takeRun]
    by_cases h : p c
    · simp [h, ih]
    · simp [h]

theorem takeRun_rest_length_le (p : Char → Bool) (cs : List Char) :
    (takeRun p cs).2.length ≤ cs.length := by
  induction cs with
  | nil => simp [takeRun]
  | cons c cs ih =>
    simp only [takeRun]
    by_cases h : p c
    · simp only [h, if_pos]
      exact Nat.le_succ_of_le ih
    · simp [h]

theorem takeRun_rest_length_lt (p : Char → Bool) (c : Char) (cs : List Char)
    (h : p c = true) : (takeRun p (c :: cs)).2.length < (c :: cs).length := by
  simp only [takeRun, h, if_pos]
  exact Nat.lt_succ_of_le (takeRun_rest_length_le p cs)

theorem takeRun_all (p : Char → Bool) (cs : List Char) :
    ∀ c ∈ (takeRun p cs).1, p c = true := by
  induction cs with
  | nil => simp [takeRun]
  | cons c cs ih =>
    simp only [takeRun]
    by_cases h : p c
    · simp only [h, if_pos]
      intro x hx
      rcases List.mem_cons.mp hx with rfl | hx
      · exact h
      · exact ih x hx
    · simp [h]

/-- Rust `str::to_lowercase`/`to_uppercase` on this ASCII data (defined over
the character list so that concrete values reduce in the kernel). -/
def strLower (s : String) : String := String.mk (s.data.map Char.toLower)

/-! ## The numeric-aware key order

`SortedString` (src/utils.rs) delegates its `Ord` instance to
`alphanumeric_sort::compare_str`, an external crate.

Modelled from the spec: the crate itself is not part of the repository; the
spec describes the order as a "locale/numeric-aware total order (so `PA2`
sorts before `PA10`)".  We model it as: runs of decimal digits compare by
their numeric value, all other characters compare by code point; a numeric
tie between two digit runs is broken by run length and then by the run text,
which keeps the comparison a total order on strings. -/

def cmpChar (a b : Char) : Ordering := compare a.toNat b.toNat

def lexCmp (c : α → α → Ordering) : List α → List α → Ordering
  | [], [] => .eq
  | [], _ :: _ => .lt
  | _ :: _, [] => .gt
  | a :: as, b :: bs => (c a b).then (lexCmp c as bs)

def digitsVal (ds : List Char) : Nat := ds.foldl (fun a c => a * 10 + (c.toNat - 48)) 0

/-- Fuel-indexed worker for the string comparison (structural recursion so
that concrete comparisons reduce in the kernel); the fuel
`x.length + y.length` always suffices, every step consumes at least one
character of each side. -/
def strCmpF : Nat → List Char → List Char → Ordering
  | _, [], [] => .eq
  | _, [], _ :: _ => .lt
  | _, _ :: _, [] => .gt
  | 0, _ :: _, _ :: _ => .eq
  | f + 1, a :: as, b :: bs =>
    if a.isDigit && b.isDigit then
      let ra := takeRun Char.isDigit (a :: as)
      let rb := takeRun Char.isDigit (b :: bs)
      (((compare (digitsVal ra.1) (digitsVal rb.1)).then
        ((compare ra.1.length rb.1.length).then (lexCmp cmpChar ra.1 rb.1))).then
        (strCmpF f ra.2 rb.2))
    else (cmpChar a b).then (strCmpF f as bs)

def strCmpL (x y : List Char) : Ordering := strCmpF (x.length + y.length) x y

/-- `compare_str` from the `alphanumeric_sort` crate (modelled from the spec,
see `strCmpL`). -/
def compare_str (a b : String) : Ordering := strCmpL a.data b.data

/-- `SortedString` (src/utils.rs): a string ordered by `compare_str`. -/
structure SortedString where
  val : String
deriving DecidableEq, Repr

/-- `impl Ord for SortedString` (src/utils.rs lines 56-60). -/
def SortedString.cmp (a b : SortedString) : Ordering := compare_str a.val b.val

def mkSS (s : String) : SortedString := ⟨s⟩

/-! ### The comparison is lawful: `.eq` exactly on equal strings -/

theorem cmpChar_eq_iff (a b : Char) : cmpChar a b = .eq ↔ a = b := by
  unfold cmpChar
  rw [Nat.compare_eq_eq]
  constructor
  · intro h
    exact Char.eq_of_val_eq (UInt32.eq_of_val_eq (Fin.eq_of_val_eq h))
  · intro h; rw [h]

theorem lexCmp_eq_iff (x y : List Char) : lexCmp cmpChar x y = .eq ↔ x = y := by
  induction x generalizing y with
  | nil => cases y <;> simp [lexCmp]
  | cons a as ih =>
    cases y with
    | nil => simp [lexCmp]
    | cons b bs =>
      simp only [lexCmp, Ordering.then_eq_eq, ih, cmpChar_eq_iff]
      constructor
      · rintro ⟨rfl, rfl⟩; rfl
      · intro h
        injection h with h1 h2
        exact ⟨h1, h2⟩

theorem strCmpF_eq_iff :
    ∀ (f : Nat) (x y : List Char), x.length + y.length ≤ f →
      (strCmpF f x y = .eq ↔ x = y) := by
  intro f
  induction f with
  | zero =>
    intro x y hf
    cases x with
    | nil =>
      cases y with
      | nil => simp [strCmpF]
      | cons b bs => simp [strCmpF]
    | cons a as =>
      cases y with
      | nil => simp [strCmpF]
      | cons b bs => simp at hf
  | succ f ih =>
    intro x y hf
    cases x with
    | nil =>
      cases y with
      | nil => simp [strCmpF]
      | cons b bs => simp [strCmpF]
    | cons a as =>
      cases y with
      | nil => simp [strCmpF]
      | cons b bs =>
        rw [strCmpF]
        by_cases hd : (a.isDigit && b.isDigit) = true
        · rw [if_pos hd]
          rw [Bool.and_eq_true] at hd
          have hla := takeRun_rest_length_lt Char.isDigit a as hd.1
          have hlb := takeRun_rest_length_lt Char.isDigit b bs hd.2
          have hrec : (takeRun Char.isDigit (a :: as)).2.length
              + (takeRun Char.isDigit (b :: bs)).2.length ≤ f := by
            simp only [List.length_cons] at hla hlb hf ⊢
            omega
          simp only [Ordering.then_eq_eq]
          rw [lexCmp_eq_iff, ih _ _ hrec]
          constructor
          · rintro ⟨⟨_, _, hruns⟩, hrest⟩
            calc a :: as = (takeRun Char.isDigit (a :: as)).1
                  ++ (takeRun Char.isDigit (a :: as)).2 := by rw [takeRun_append]
              _ = (takeRun Char.isDigit (b :: bs)).1
                  ++ (takeRun Char.isDigit (b :: bs)).2 := by rw [hruns, hrest]
              _ = b :: bs := by rw [takeRun_append]
          · intro hxy
            injection hxy with h1 h2
            subst h1; subst h2
            exact ⟨⟨Nat.compare_eq_eq.mpr rfl, Nat.compare_eq_eq.mpr rfl, rfl⟩, rfl⟩
        · rw [if_neg hd]
          have hrec : as.length + bs.length ≤ f := by
            simp only [List.length_cons] at hf
            omega
          simp only [Ordering.then_eq_eq, cmpChar_eq_iff, ih _ _ hrec]
          constructor
          · intro hp
            rw [hp.1, hp.2]
          · intro hxy
            injection hxy with h1 h2
            exact ⟨h1, h2⟩

theorem strCmpL_eq_iff (x y : List Char) : strCmpL x y = .eq ↔ x = y :=
  strCmpF_eq_iff (x.length + y.length) x y (Nat.le_refl _)

theorem compare_str_eq_iff (a b : String) : compare_str a b = .eq ↔ a = b := by
  unfold compare_str
  rw [strCmpL_eq_iff]
  constructor
  · intro h
    cases a; cases b
    simp only at h
    rw [h]
  · intro h; rw [h]

deriving instance DecidableEq for Except

/-! ## Association-list model of `BTreeMap` and `BTreeSet`

Maps are modelled by their binding content: at most one binding per key
(keys compared with the map's comparator), iteration order abstracted.
`entryUpd` models `map.entry(k).or_insert_with(d)` followed by an in-place
update returning an auxiliary result; `minsertRet` models `map.insert(k, v)`,
which *replaces* an existing value and returns the old one. -/

section Maps

variable {κ α β : Type}

def LawEq (ck : κ → κ → Ordering) : Prop := ∀ a b, ck a b = .eq ↔ a = b

theorem LawEq.refl {ck : κ → κ → Ordering} (h : LawEq ck) (k : κ) : ck k k = .eq :=
  (h k k).mpr rfl

def mfind (ck : κ → κ → Ordering) (k : κ) : List (κ × α) → Option α
  | [] => none
  | (k', v) :: r => if ck k k' = .eq then some v else mfind ck k r

def entryUpd (ck : κ → κ → Ordering) (k : κ) (d : α) (f : α → α × β) :
    List (κ × α) → List (κ × α) × β
  | [] => ([(k, (f d).1)], (f d).2)
  | (k', v) :: r =>
    if ck k k' = .eq then ((k', (f v).1) :: r, (f v).2)
    else
      let res := entryUpd ck k d f r
      ((k', v) :: res.1, res.2)

def minsertRet (ck : κ → κ → Ordering) (k : κ) (v : α) :
    List (κ × α) → Option α × List (κ × α)
  | [] => (none, [(k, v)])
  | (k', v') :: r =>
    if ck k k' = .eq then (some v', (k', v) :: r)
    else
      let res := minsertRet ck k v r
      (res.1, (k', v') :: res.2)

variable {ck : κ → κ → Ordering}

theorem mfind_entryUpd_self (h : LawEq ck) (k : κ) (d : α) (f : α → α × β) (m : List (κ × α)) :
    mfind ck k (entryUpd ck k d f m).1 = some (f ((mfind ck k m).getD d)).1 := by
  induction m with
  | nil => simp [entryUpd, mfind, h.refl]
  | cons e r ih =>
    obtain ⟨k', v⟩ := e
    by_cases hk : ck k k' = .eq
    · simp only [entryUpd, mfind, hk, if_pos]
      have hk' : k = k' := (h k k').mp hk
      subst hk'
      simp [mfind, h.refl]
    · simp [entryUpd, mfind, hk, ih]

theorem entryUpd_snd (k : κ) (d : α) (f : α → α × β) (m : List (κ × α)) :
    (entryUpd ck k d f m).2 = (f ((mfind ck k m).getD d)).2 := by
  induction m with
  | nil => simp [entryUpd, mfind]
  | cons e r ih =>
    obtain ⟨k', v⟩ := e
    by_cases hk : ck k k' = .eq
    · simp [entryUpd, mfind, hk]
    · simp [entryUpd, mfind, hk, ih]

theorem mfind_entryUpd_ne (h : LawEq ck) (k k' : κ) (d : α) (f : α → α × β) (m : List (κ × α))
    (hne : k' ≠ k) : mfind ck k' (entryUpd ck k d f m).1 = mfind ck k' m := by
  induction m with
  | nil =>
    have : ck k' k ≠ .eq := fun hc => hne ((h k' k).mp hc)
    simp [entryUpd, mfind, this]
  | cons e r ih =>
    obtain ⟨k'', v⟩ := e
    by_cases hk : ck k k'' = .eq
    · have hkk : k = k'' := (h k k'').mp hk
      subst hkk
      have : ck k' k ≠ .eq := fun hc => hne ((h k' k).mp hc)
      simp [entryUpd, mfind, hk, this]
    · simp [entryUpd, mfind, hk, ih]

theorem minsertRet_fst (k : κ) (v : α) (m : List (κ × α)) :
    (minsertRet ck k v m).1 = mfind ck k m := by
  induction m with
  | nil => simp [minsertRet, mfind]
  | cons e r ih =>
    obtain ⟨k', v'⟩ := e
    by_cases hk : ck k k' = .eq
    · simp [minsertRet, mfind, hk]
    · simp [minsertRet, mfind, hk, ih]

theorem mfind_minsertRet_self (h : LawEq ck) (k : κ) (v : α) (m : List (κ × α)) :
    mfind ck k (minsertRet ck k v m).2 = some v := by
  induction m with
  | nil => simp [minsertRet, mfind, h.refl]
  | cons e r ih =>
    obtain ⟨k', v'⟩ := e
    by_cases hk : ck k k' = .eq
    · simp [minsertRet, mfind, hk]
    · simp [minsertRet, mfind, hk, ih]

theorem entryUpd_keys (k : κ) (d : α) (f : α → α × β) (m : List (κ × α)) :
    (entryUpd ck k d f m).1.map Prod.fst
      = if (mfind ck k m (α := α)).isSome then m.map Prod.fst else m.map Prod.fst ++ [k] := by
  induction m with
  | nil => simp [entryUpd, mfind]
  | cons e r ih =>
    obtain ⟨k', v⟩ := e
    by_cases hk : ck k k' = .eq
    · simp [entryUpd, mfind, hk]
    · simp only [entryUpd, mfind, List.map_cons]
      rw [if_neg hk, if_neg hk]
      simp only [List.map_cons]
      rw [ih]
      by_cases hs : (mfind ck k r (α := α)).isSome
      · simp [hs]
      · simp [hs]

theorem mfind_none_iff (h : LawEq ck) (k : κ) (m : List (κ × α)) :
    mfind ck k m = none ↔ k ∉ m.map Prod.fst := by
  induction m with
  | nil => simp [mfind]
  | cons e r ih =>
    obtain ⟨k', v⟩ := e
    by_cases hk : ck k k' = .eq
    · have : k = k' := (h k k').mp hk
      subst this
      simp [mfind, hk]
    · have : k ≠ k' := fun hc => hk ((h k k').mpr hc)
      simp [mfind, hk, ih, this]

theorem entryUpd_keys_nodup (h : LawEq ck) (k : κ) (d : α) (f : α → α × β) (m : List (κ × α))
    (hnd : (m.map Prod.fst).Nodup) : ((entryUpd ck k d f m).1.map Prod.fst).Nodup := by
  rw [entryUpd_keys]
  by_cases hs : (mfind ck k m (α := α)).isSome
  · simp [hs, hnd]
  · simp only [hs, if_neg, Bool.false_eq_true, not_false_iff]
    rw [List.nodup_append]
    refine ⟨hnd, List.nodup_singleton k, ?_⟩
    intro x hx hx'
    rcases List.mem_singleton.mp hx' with rfl
    have hn : mfind ck x m (α := α) = none := by
      cases hm : mfind ck x m (α := α) with
      | none => rfl
      | some v => rw [hm] at hs; simp at hs
    exact ((mfind_none_iff h x m).mp hn) hx

theorem mem_iff_mfind (h : LawEq ck) (k : κ) (v : α) (m : List (κ × α))
    (hnd : (m.map Prod.fst).Nodup) : (k, v) ∈ m ↔ mfind ck k m = some v := by
  induction m with
  | nil => simp [mfind]
  | cons e r ih =>
    obtain ⟨k', v'⟩ := e
    simp only [List.map_cons, List.nodup_cons] at hnd
    by_cases hk : ck k k' = .eq
    · have hkk : k = k' := (h k k').mp hk
      subst hkk
      simp only [mfind, hk, if_pos, List.mem_cons, Option.some_inj]
      constructor
      · rintro (he | hm)
        · injection he with _ h2
          exact h2.symm
        · exact absurd (List.mem_map.mpr ⟨(k, v), hm, rfl⟩) hnd.1
      · rintro rfl
        exact Or.inl rfl
    · have hkk : k ≠ k' := fun hc => hk ((h k k').mpr hc)
      simp only [mfind, List.mem_cons]
      rw [if_neg hk]
      rw [← ih hnd.2]
      constructor
      · rintro (he | hm)
        · injection he with h1 _
          exact absurd h1 hkk
        · exact hm
      · exact Or.inr

end Maps

/-! ### Set operations (content model of `BTreeSet`) -/

section Sets

variable {κ : Type}

def setMemB (ck : κ → κ → Ordering) (x : κ) (s : List κ) : Bool :=
  s.any (fun y => ck x y = .eq)

/-- `BTreeSet::insert`: add the element if no equal element is present. -/
def setInsert (ck : κ → κ → Ordering) (x : κ) (s : List κ) : List κ :=
  if setMemB ck x s then s else s ++ [x]

/-- `BTreeSet::extend`: insert every element of `b` into `a`. -/
def setUnion (ck : κ → κ → Ordering) (a b : List κ) : List κ :=
  b.foldl (fun s x => setInsert ck x s) a

def subsetB (ck : κ → κ → Ordering) (a b : List κ) : Bool :=
  a.all (fun x => setMemB ck x b)

/-- Value-equality of `BTreeSet`s: mutual containment.  Two Rust `BTreeSet`s
are `==` exactly when they contain the same elements, which for the
comparators used here (all lawful) is this relation. -/
def setEqB (ck : κ → κ → Ordering) (a b : List κ) : Bool :=
  subsetB ck a b && subsetB ck b a

variable {ck : κ → κ → Ordering}

theorem setMemB_iff (h : LawEq ck) (x : κ) (s : List κ) :
    setMemB ck x s = true ↔ x ∈ s := by
  unfold setMemB
  rw [List.any_eq_true]
  constructor
  · rintro ⟨y, hy, he⟩
    have : ck x y = .eq := by simpa using he
    rw [(h x y).mp this]
    exact hy
  · intro hx
    exact ⟨x, hx, by simp [h.refl]⟩

theorem setMemB_insert (h : LawEq ck) (x y : κ) (s : List κ) :
    setMemB ck x (setInsert ck y s) = true ↔ x = y ∨ setMemB ck x s = true := by
  unfold setInsert
  by_cases hm : setMemB ck y s = true
  · simp only [hm, if_pos]
    constructor
    · intro hx
      exact Or.inr hx
    · rintro (rfl | hx)
      · exact hm
      · exact hx
  · simp only [hm, if_neg, Bool.false_eq_true, not_false_iff]
    rw [setMemB_iff h, List.mem_append, List.mem_singleton, ← setMemB_iff h]
    tauto

theorem setMemB_union (h : LawEq ck) (x : κ) (a b : List κ) :
    setMemB ck x (setUnion ck a b) = true ↔ setMemB ck x a = true ∨ x ∈ b := by
  unfold setUnion
  induction b generalizing a with
  | nil => simp
  | cons y b ih =>
    simp only [List.foldl_cons, ih, List.mem_cons]
    rw [setMemB_insert h]
    tauto

theorem subsetB_iff (h : LawEq ck) (a b : List κ) :
    subsetB ck a b = true ↔ ∀ x ∈ a, x ∈ b := by
  unfold subsetB
  rw [List.all_eq_true]
  constructor
  · intro hs x hx
    exact (setMemB_iff h x b).mp (hs x hx)
  · intro hs x hx
    exact (setMemB_iff h x b).mpr (hs x hx)

theorem setEqB_iff (h : LawEq ck) (a b : List κ) :
    setEqB ck a b = true ↔ (∀ x, x ∈ a ↔ x ∈ b) := by
  unfold setEqB
  rw [Bool.and_eq_true, subsetB_iff h, subsetB_iff h]
  constructor
  · intro hs x
    exact ⟨fun hx => hs.1 x hx, fun hx => hs.2 x hx⟩
  · intro hs
    exact ⟨fun x hx => (hs x).mp hx, fun x hx => (hs x).mpr hx⟩

theorem setEqB_refl (h : LawEq ck) (a : List κ) : setEqB ck a a = true := by
  rw [setEqB_iff h]; intro x; exact Iff.rfl

theorem setEqB_symm (h : LawEq ck) (a b : List κ) : setEqB ck a b = setEqB ck b a := by
  unfold setEqB
  exact Bool.and_comm _ _

theorem setEqB_trans (h : LawEq ck) (a b c : List κ)
    (hab : setEqB ck a b = true) (hbc : setEqB ck b c = true) : setEqB ck a c = true := by
  rw [setEqB_iff h] at hab hbc ⊢
  intro x
  exact (hab x).trans (hbc x)

end Sets

/-! ### The concrete comparators used by the trees -/

def cmpSS (a b : SortedString) : Ordering := SortedString.cmp a b

/-- Rust `String`/`str` `Ord`: byte-lexicographic (code-point order on this
ASCII data). -/
def strLexCmp (a b : String) : Ordering := lexCmp cmpChar a.data b.data

def cmpNat (a b : Nat) : Ordering := compare a b

def cmpProd {κ₁ κ₂ : Type} (c1 : κ₁ → κ₁ → Ordering) (c2 : κ₂ → κ₂ → Ordering)
    (a b : κ₁ × κ₂) : Ordering := (c1 a.1 b.1).then (c2 a.2 b.2)

theorem cmpSS_lawEq : LawEq cmpSS := by
  intro a b
  unfold cmpSS SortedString.cmp
  rw [compare_str_eq_iff]
  constructor
  · intro hv
    cases a; cases b
    simp only at hv
    rw [hv]
  · intro hv; rw [hv]

theorem strLexCmp_lawEq : LawEq strLexCmp := by
  intro a b
  unfold strLexCmp
  rw [lexCmp_eq_iff]
  constructor
  · intro hv
    cases a; cases b
    simp only at hv
    rw [hv]
  · intro hv; rw [hv]

theorem cmpNat_lawEq : LawEq cmpNat := by
  intro a b
  exact Nat.compare_eq_eq

theorem cmpProd_lawEq {κ₁ κ₂ : Type} {c1 : κ₁ → κ₁ → Ordering} {c2 : κ₂ → κ₂ → Ordering}
    (h1 : LawEq c1) (h2 : LawEq c2) : LawEq (cmpProd c1 c2) := by
  intro a b
  unfold cmpProd
  rw [Ordering.then_eq_eq, h1, h2]
  constructor
  · intro hp
    exact Prod.ext hp.1 hp.2
  · intro hp
    rw [hp]
    exact ⟨rfl, rfl⟩

/-- Comparator of the `(af, io)` keys of `AfTreeIos`. -/
def cmpAfIo : SortedString × SortedString → SortedString × SortedString → Ordering :=
  cmpProd cmpSS cmpSS

/-- Comparator of the `(port_name, pin_nr)` keys of `AfTreePins`. -/
def cmpPin : String × Nat → String × Nat → Ordering :=
  cmpProd strLexCmp cmpNat

/-- Comparator of the `(io_name, io)` keys of `io_traits_collect`. -/
def cmpIor : SortedString × String → SortedString × String → Ordering :=
  cmpProd cmpSS strLexCmp

theorem cmpAfIo_lawEq : LawEq cmpAfIo := cmpProd_lawEq cmpSS_lawEq cmpSS_lawEq

theorem cmpPin_lawEq : LawEq cmpPin := cmpProd_lawEq strLexCmp_lawEq cmpNat_lawEq

theorem cmpIor_lawEq : LawEq cmpIor := cmpProd_lawEq cmpSS_lawEq strLexCmp_lawEq

/-! ## Regex models

Each regex of the program is modelled as an explicit matcher over the
character list, reproducing the leftmost-first, greedy-with-backtracking
capture semantics of the `regex` crate for the concrete pattern.  Character
classes are the ASCII classes appearing in the patterns. -/

def isUpperAZ (c : Char) : Bool := (('A' ≤ c ∧ c ≤ 'Z') : Bool)

def isLowerAZ (c : Char) : Bool := (('a' ≤ c ∧ c ≤ 'z') : Bool)

/-- Result of `STEM_REGEX` (src/internal_peripheral.rs lines 244-246):
`^(?P<dev>(?P<stem>((FMP)?I2|USB_OTG_)?[A-Z-]+)\d*(ext)?)(_(?P<io>[\w-]+))?$` -/
structure SigParse where
  stem : String
  dev : String
  io : Option String
deriving DecidableEq, Repr

/-- The final `(_(?P<io>[\w-]+))?$` part of `STEM_REGEX`: the greedy optional
group must either consume the whole remainder (an underscore followed by a
non-empty word/dash run) or the remainder must already be empty. -/
def matchTail (cs : List Char) : Option (Option String) :=
  match cs with
  | [] => some none
  | '_' :: t => if (!t.isEmpty) && t.all isWordDash then some (some (String.mk t)) else none
  | _ => none

/-- The `(ext)?` part: greedily try the literal `ext` first. -/
def matchExt (stem devCore : String) (cs : List Char) : Option SigParse :=
  let tryExt :=
    if List.isPrefixOf ['e', 'x', 't'] cs then
      (matchTail (cs.drop 3)).map (fun io => SigParse.mk stem (devCore ++ "ext") io)
    else none
  tryExt <|> (matchTail cs).map (fun io => SigParse.mk stem devCore io)

/-- The `\d*` part: greedy, with backtracking over shorter digit runs. -/
def matchDigits (stem : String) (cs : List Char) : Option SigParse :=
  let digs := takeRun Char.isDigit cs
  (List.range (digs.1.length + 1)).findSome? (fun back =>
    let d := digs.1.length - back
    matchExt stem (stem ++ String.mk (digs.1.take d)) ((digs.1.drop d) ++ digs.2))

/-- The `[A-Z-]+` part (at least one character): greedy, with backtracking. -/
def matchLetters (pfx : String) (cs : List Char) : Option SigParse :=
  let lets := takeRun isUpperDash cs
  (List.range lets.1.length).findSome? (fun back =>
    let l := lets.1.length - back
    matchDigits (pfx ++ String.mk (lets.1.take l)) ((lets.1.drop l) ++ lets.2))

/-- The `((FMP)?I2|USB_OTG_)?` alternatives, in the regex engine's preference
order: `FMP` present, then absent, then the second alternative, then the
whole group skipped. -/
def pfxCandidates : List String := ["FMPI2", "I2", "USB_OTG_", ""]

/-- The signal-name parser: full match of `STEM_REGEX` against `name`,
returning the `stem`, `dev` and optional `io` captures. -/
def sigMatch (name : String) : Option SigParse :=
  pfxCandidates.findSome? (fun p =>
    if List.isPrefixOf p.data name.data then matchLetters p (name.data.drop p.data.length)
    else none)

/-- `AF_REGEX` (src/internal_peripheral.rs line 247):
`^GPIO_(?P<af>[a-zA-Z\d]+)_\w+$`, returning the `af` capture. -/
def afMatch (val : String) : Option String :=
  let cs := val.data
  if List.isPrefixOf ['G', 'P', 'I', 'O', '_'] cs then
    let run := takeRun isAlnumChar (cs.drop 5)
    match run.2 with
    | '_' :: t =>
      if (!run.1.isEmpty) && (!t.isEmpty) && t.all isWordChar then some (String.mk run.1)
      else none
    | _ => none
  else none

/-- `GPIO_REGEX` (src/internal_peripheral.rs line 118):
`^(?P<gpio>[a-zA-Z0-9]+)_(?P<version>gpio_\w+)$`, returning `(gpio, version)`. -/
def gpioNameMatch (s : String) : Option (String × String) :=
  let run := takeRun isAlnumChar s.data
  match run.2 with
  | '_' :: t =>
    if (!run.1.isEmpty) && List.isPrefixOf ['g', 'p', 'i', 'o', '_'] t
        && (!(t.drop 5).isEmpty) && (t.drop 5).all isWordChar then
      some (String.mk run.1, String.mk t)
    else none
  | _ => none

/-- `MCUS_REGEX` (src/internal_peripheral.rs line 119):
`^(?P<mcu>STM32[A-Z]+[0-9]+)[A-Za-z][A-Za-z0-9]+$`, returning the `mcu`
capture. -/
def mcusParse (mcu : String) : Option String :=
  let cs := mcu.data
  if List.isPrefixOf ['S', 'T', 'M', '3', '2'] cs then
    let r1 := takeRun isUpperAZ (cs.drop 5)
    let r2 := takeRun Char.isDigit r1.2
    match r2.2 with
    | c :: rest =>
      if (!r1.1.isEmpty) && (!r2.1.isEmpty) && isAsciiAlpha c
          && (!rest.isEmpty) && rest.all isAlnumChar then
        some ("STM32" ++ String.mk r1.1 ++ String.mk r2.1)
      else none
    | [] => none
  else none

/-! ## String helpers from src/utils.rs and the standard library -/

/-- Rust `str::split(sep)` on a character list. -/
def splitOnChar (sep : Char) : List Char → List (List Char)
  | [] => [[]]
  | c :: rest =>
    let r := splitOnChar sep rest
    if c = sep then [] :: r
    else
      match r with
      | [] => [[c]]
      | p :: ps => (c :: p) :: ps

/-- Rust `str::parse::<u32>()`: an optional leading `+`, then one or more
decimal digits, value at most `u32::MAX`. -/
def parseU32 (cs : List Char) : Option Nat :=
  let ds := match cs with
    | '+' :: t => t
    | _ => cs
  if (!ds.isEmpty) && ds.all Char.isDigit then
    let v := ds.foldl (fun a c => a * 10 + (c.toNat - 48)) 0
    if v < 4294967296 then some v else none
  else none

/-- `to_pascalcase` (src/utils.rs lines 22-51): every non-overlapping match of
`(\d+)|([A-Z])([A-Z]+|[a-z]+)?|([a-z])([a-z]+)?` becomes a capitalised
segment; the segments are concatenated.  Fuel-indexed worker (structural
recursion for kernel reduction; the fuel `cs.length` always suffices, every
step consumes at least one character). -/
def pascalSegsF : Nat → List Char → List String
  | _, [] => []
  | 0, _ :: _ => []
  | f + 1, c :: rest =>
    if c.isDigit then
      let r := takeRun Char.isDigit (c :: rest)
      String.mk r.1 :: pascalSegsF f r.2
    else if isUpperAZ c then
      let ru := takeRun isUpperAZ rest
      if ru.1.isEmpty then
        let rl := takeRun isLowerAZ rest
        if rl.1.isEmpty then String.mk [c] :: pascalSegsF f rest
        else (String.mk [c] ++ strLower (String.mk rl.1)) :: pascalSegsF f rl.2
      else (String.mk [c] ++ strLower (String.mk ru.1)) :: pascalSegsF f ru.2
    else if isLowerAZ c then
      let r := takeRun isLowerAZ rest
      (String.mk [c.toUpper] ++ strLower (String.mk r.1)) :: pascalSegsF f r.2
    else pascalSegsF f rest

def pascalSegs (cs : List Char) : List String := pascalSegsF cs.length cs

def toPascalCase (s : String) : String := String.join (pascalSegs s.data)

/-! ## The aggregation tree (src/internal_peripheral.rs) -/

abbrev AfTreeMcus := List SortedString
abbrev AfTreeGpioVersions := List (SortedString × AfTreeMcus)
abbrev AfTreeGpios := List (SortedString × AfTreeGpioVersions)
abbrev AfTreePins := List ((String × Nat) × (List SortedString × AfTreeGpios))
abbrev AfTreeIos := List ((SortedString × SortedString) × (String × AfTreePins))
abbrev AfTreeDevs := List (SortedString × AfTreeIos)
abbrev AfTreeStems := List (SortedString × AfTreeDevs)
abbrev AfTreeGpiosAll := List (SortedString × (String × AfTreeGpioVersions))

instance : DecidableEq AfTreeGpioVersions := inferInstance

instance : DecidableEq AfTreeGpios := inferInstance

instance : DecidableEq AfTreePins := inferInstance

instance : DecidableEq AfTreeIos := inferInstance

instance : DecidableEq AfTreeDevs := inferInstance

instance : DecidableEq AfTreeStems := inferInstance

instance : DecidableEq AfTreeGpiosAll := inferInstance

structure PossibleValue where
  val : String
deriving DecidableEq, Repr

structure SpecificParameter where
  name : String
  possible_value : PossibleValue
deriving DecidableEq, Repr

structure PinSignal where
  name : String
  specific_parameter : SpecificParameter
deriving DecidableEq, Repr

structure GPIOPin where
  port_name : String
  name : String
  specific_parameter : List SpecificParameter
  pin_signal : Option (List PinSignal)
deriving DecidableEq, Repr

/-- `GPIOPin::get_pin_nr` (src/internal_peripheral.rs lines 226-234).  The
Rust code indexes `val.split('_').collect::<Vec<_>>()[2]`, which panics when
the split yields fewer than three parts; the panic is the `.error` case. -/
def GPIOPin.get_pin_nr (p : GPIOPin) : Except String (Option Nat) :=
  match p.specific_parameter.find? (fun v => v.name == "GPIO_Pin") with
  | some v =>
    let parts := splitOnChar '_' v.possible_value.val.data
    if h : 2 < parts.length then .ok (parseU32 (parts.get ⟨2, h⟩))
    else .error "index out of bounds"
  | none => .ok none

/-- The warnings (`eprintln!` lines) that `update_af_tree` can emit. -/
inductive Warning where
  | noPinNr (pin : String)
  | badSignal (sig : String)
  | badAf (val : String)
  | missingIo (stem dev : String)
  | dupVersion (stem dev af io gpioMcu gpioVersion : String)
deriving DecidableEq, Repr

def Warning.isDupVersion : Warning → Bool
  | .dupVersion _ _ _ _ _ _ => true
  | _ => false

/-- The io-role defaulting (src/internal_peripheral.rs lines 287-295): when
the name has no `io` capture the stem is substituted, warning unless the stem
is one of the two allow-listed role-less stems. -/
def defaultIo (stem : String) (io : Option String) : String × Bool :=
  match io with
  | some i => (i, false)
  | none => (stem, !(["EVENTOUT", "CEC"].contains stem))

/-- The innermost insertion of `update_af_tree` (src/internal_peripheral.rs
lines 305-307): `pin.1.entry(gpio_mcu).or_insert_with(new).insert(gpio_version,
mcus)`.  The boolean reports whether `insert` returned a previous value
(which the code logs as a duplicate). -/
def insertGpioVersion (gpioMcu gpioVersion : String) (mcus : AfTreeMcus)
    (gpios : AfTreeGpios) : AfTreeGpios × Bool :=
  entryUpd cmpSS ⟨gpioMcu⟩ [] (fun vers =>
    let r := minsertRet cmpSS ⟨gpioVersion⟩ mcus vers
    (r.2, r.1.isSome)) gpios

/-- The per-pin update at the `(port_name, pin_nr)` entry: insert the
original pin name into the name set and the `(gpio_version → mcus)` binding
into the gpio map (src/internal_peripheral.rs lines 303-307). -/
def updatePinEntry (nm gpioMcu gpioVersion : String) (mcus : AfTreeMcus)
    (pv : List SortedString × AfTreeGpios) : (List SortedString × AfTreeGpios) × Bool :=
  ((setInsert cmpSS ⟨nm⟩ pv.1, (insertGpioVersion gpioMcu gpioVersion mcus pv.2).1),
    (insertGpioVersion gpioMcu gpioVersion mcus pv.2).2)

/-- The four-level get-or-create entry chain of `update_af_tree`
(src/internal_peripheral.rs lines 299-307); the boolean is the duplicate
flag of the innermost insertion. -/
def insertSignal (stem dev : SortedString) (afio : SortedString × SortedString)
    (ioName : String) (pin : String × Nat) (nm gpioMcu gpioVersion : String)
    (mcus : AfTreeMcus) (t : AfTreeStems) : AfTreeStems × Bool :=
  entryUpd cmpSS stem [] (fun devs =>
    entryUpd cmpSS dev [] (fun ios =>
      entryUpd cmpAfIo afio (ioName, []) (fun iv =>
        let pres := entryUpd cmpPin pin ([], [])
          (updatePinEntry nm gpioMcu gpioVersion mcus) iv.2
        ((iv.1, pres.1), pres.2)) ios) devs) t

/-- Processing of one `PinSignal` inside the loop of `update_af_tree`
(src/internal_peripheral.rs lines 261-315). -/
def processSignal (p : GPIOPin) (gpioMcu gpioVersion : String) (mcus : AfTreeMcus)
    (pinNr : Nat) (acc : AfTreeStems × List Warning) (sig : PinSignal) :
    AfTreeStems × List Warning :=
  match sigMatch sig.name with
  | none => (acc.1, acc.2 ++ [.badSignal sig.name])
  | some pr =>
    match afMatch sig.specific_parameter.possible_value.val with
    | none => (acc.1, acc.2 ++ [.badAf sig.specific_parameter.possible_value.val])
    | some af =>
      let iod := defaultIo pr.stem pr.io
      let io := iod.1
      let ws := if iod.2 then acc.2 ++ [.missingIo pr.stem pr.dev] else acc.2
      let ioName := "Pin" ++ toPascalCase io
      let res := insertSignal ⟨pr.stem⟩ ⟨pr.dev⟩ (⟨af⟩, ⟨io⟩) ioName
        (p.port_name, pinNr) p.name gpioMcu gpioVersion mcus acc.1
      let ws := if res.2 then ws ++ [.dupVersion pr.stem pr.dev af io gpioMcu gpioVersion] else ws
      (res.1, ws)

/-- `GPIOPin::update_af_tree` (src/internal_peripheral.rs lines 236-317).
Returns the updated tree together with the warnings emitted; a panic inside
`get_pin_nr` is the `.error` case. -/
def GPIOPin.update_af_tree (p : GPIOPin) (gpioMcu gpioVersion : String)
    (mcus : AfTreeMcus) (af_tree : AfTreeStems) :
    Except String (AfTreeStems × List Warning) :=
  match p.get_pin_nr with
  | .error e => .error e
  | .ok none => .ok (af_tree, [.noPinNr p.name])
  | .ok (some pinNr) =>
    match p.pin_signal with
    | none => .ok (af_tree, [])
    | some sigs => .ok (sigs.foldl (processSignal p gpioMcu gpioVersion mcus pinNr) (af_tree, []))

/-- Full-path lookup in the aggregation tree, down to the
`gpio_version → mcu_set` leaf. -/
def lookupPath (t : AfTreeStems) (stem dev : SortedString)
    (afio : SortedString × SortedString) (pin : String × Nat)
    (gm gv : SortedString) : Option AfTreeMcus :=
  (mfind cmpSS stem t).bind fun devs =>
  (mfind cmpSS dev devs).bind fun ios =>
  (mfind cmpAfIo afio ios).bind fun iv =>
  (mfind cmpPin pin iv.2).bind fun pv =>
  (mfind cmpSS gm pv.2).bind fun vers =>
  mfind cmpSS gv vers

/-! ## `AfTree::build` and `AfTree::iter` -/

/-- The MCU-name simplification loop of `AfTree::build`
(src/internal_peripheral.rs lines 146-158): names matching `MCUS_REGEX` are
replaced by the lowercased model prefix; others are warned about (returned in
the second component) and skipped. -/
def simplifyStep (acc : AfTreeMcus × List String) (mcu : String) :
    AfTreeMcus × List String :=
  match mcusParse mcu with
  | some m => (setInsert cmpSS ⟨strLower m⟩ acc.1, acc.2)
  | none => (acc.1, acc.2 ++ [mcu])

def simplifyMcus (mcus : List String) : AfTreeMcus × List String :=
  mcus.foldl simplifyStep ([], [])

/-- Warnings emitted by `AfTree::build` (all `eprintln!`, warn-only). -/
inductive BWarning where
  | loadFailed (gpio err : String)
  | badGpioName (gpio : String)
  | badMcuName (mcu : String)
  | pinWarning (w : Warning)
  | dupGpioFile (gpioMcu gpioVersion : String) (harmless : Bool)
deriving DecidableEq, Repr

structure BuildState where
  tree : AfTreeStems
  gpios : AfTreeGpiosAll
  warnings : List BWarning
deriving DecidableEq, Repr

/-- Possible outcomes of `AfTree::build`: a returned `Err` value, a panic, or
success. -/
inductive BuildOutcome where
  | err (msg : String)
  | panic (msg : String)
  | ok (tree : AfTreeStems) (gpios : AfTreeGpiosAll) (warnings : List BWarning)
deriving DecidableEq, Repr

/-- One iteration of the `for (gpio, mcus) in mcu_gpio_map` loop of
`AfTree::build` (src/internal_peripheral.rs lines 122-182). -/
def buildEntry (loader : String → Except String (List GPIOPin)) (simplify : Bool)
    (st : BuildState) (e : String × List String) : Except String BuildState :=
  match loader e.1 with
  | .error err => .ok { st with warnings := st.warnings ++ [.loadFailed e.1 err] }
  | .ok pins =>
    match gpioNameMatch e.1 with
    | none => .ok { st with warnings := st.warnings ++ [.badGpioName e.1] }
    | some gv =>
      let sm :=
        if simplify then simplifyMcus e.2
        else (e.2.foldl (fun s m => setInsert cmpSS ⟨m⟩ s) [], [])
      let ws0 := st.warnings ++ sm.2.map BWarning.badMcuName
      let r := pins.foldlM (fun (acc : AfTreeStems × List BWarning) p =>
        (p.update_af_tree gv.1 gv.2 sm.1 acc.1).map
          (fun tr => (tr.1, acc.2 ++ tr.2.map BWarning.pinWarning)))
        (st.tree, ws0)
      match r with
      | .error e2 => .error e2
      | .ok tw =>
        let gres := entryUpd cmpSS ⟨gv.1⟩ (e.1, []) (fun g =>
          let ins := minsertRet cmpSS ⟨gv.2⟩ sm.1 g.2
          ((g.1, ins.2), ins.1)) st.gpios
        let ws' := match gres.2 with
          | some old => tw.2 ++ [.dupGpioFile gv.1 gv.2 (decide (old = sm.1))]
          | none => tw.2
        .ok { tree := tw.1, gpios := gres.1, warnings := ws' }

/-- `AfTree::build` (src/internal_peripheral.rs lines 105-184).  The loader
for the per-revision XML files is the external collaborator; a loader failure
is warn-only. -/
def build (family : String) (entries : List (String × List String))
    (loader : String → Except String (List GPIOPin)) (simplify : Bool) : BuildOutcome :=
  if family = "STM32F1" then
    .err "The STM32F1-family is unforunately not supported! (see \"TODO f1 compatibility\" in internal_peripherals.rs)"
  else
    match entries.foldlM (buildEntry loader simplify) ⟨[], [], []⟩ with
    | .error e => .panic e
    | .ok st => .ok st.tree st.gpios st.warnings

def sepQuote : String := String.mk ['\x27', ',', '\x27']

/-- The error message of `AfTree::iter` (src/internal_peripheral.rs lines
201-203), enumerating the invalid stems. -/
def invalidMsg (invalid : List String) : String :=
  "Invalid stem" ++ (if invalid.length = 1 then "" else "s") ++ " detected! ("
    ++ String.intercalate sepQuote invalid ++ ")"

/-- The invalid-stem computation of `AfTree::iter`
(src/internal_peripheral.rs lines 194-199): the selected stems absent from
the tree, in selection order, as plain strings.  The membership test is the
map comparator (`contains_key`). -/
def invalidStemsOf (t : AfTreeStems) (sel : List String) : List String :=
  ((sel.map mkSS).filter (fun s => !(t.any (fun e => cmpSS s e.1 == Ordering.eq)))).map
    (fun s => s.val)

/-- `AfTree::iter` (src/internal_peripheral.rs lines 185-209): filtered
iteration over the stem level of the tree.  The membership test uses the
map's comparator (`contains_key`), the final filter uses `PartialEq`
(`sel.contains`), exactly as in the source. -/
def iterStems (t : AfTreeStems) (sel : Option (List String)) :
    Except String (List (SortedString × AfTreeDevs)) :=
  match sel with
  | some ss =>
    let selS := ss.map mkSS
    let invalid := invalidStemsOf t ss
    if invalid.isEmpty then .ok (t.filter (fun e => selS.contains e.1))
    else .error (invalidMsg invalid)
  | none =>
    let selS := t.map Prod.fst
    .ok (t.filter (fun e => selS.contains e.1))

/-! ## `generate_features` (src/main.rs lines 27-40 and 172-271) -/

/-- Rust `{:?}` (Debug) formatting of a string: quoted, with `\` and `"`
escaped (the only escapes this data can need). -/
def rustDebugStr (s : String) : String :=
  "\"" ++ String.mk (s.data.foldr (fun c acc =>
    if c = '"' || c = '\\' then '\\' :: c :: acc else c :: acc) []) ++ "\""

/-- Rust `{:?}` formatting of a `Vec<String>`. -/
def rustDebugList (l : List String) : String :=
  "[" ++ String.intercalate ", " (l.map rustDebugStr) ++ "]"

/-- `gpio_version_to_feature` (src/main.rs lines 34-40), with
`GPIO_VERSION = ^([^_]*)_gpio_v1_0$` (line 29). -/
def gpio_version_to_feature (version : String) : Except String String :=
  let cs := version.data
  let sfx := "_gpio_v1_0".data
  if (decide (sfx.length ≤ cs.length) && (cs.drop (cs.length - sfx.length) == sfx)
      && (cs.take (cs.length - sfx.length)).all (fun c => c != '_')) then
    .ok ("io-" ++ String.mk (cs.take (cs.length - sfx.length)))
  else .error ("Could not parse version " ++ rustDebugStr version)

/-- Stable insertion step of `Vec::sort`/`sort_by` under comparator `c`. -/
def insOrd (c : α → α → Ordering) (x : α) : List α → List α
  | [] => [x]
  | y :: r => if c x y = .lt then x :: y :: r else y :: insOrd c x r

/-- Stable sort by comparator `c` (insertion sort). -/
def sortByCmp (c : α → α → Ordering) (l : List α) : List α :=
  l.foldl (fun acc x => insOrd c x acc) []

/-- `Vec::dedup`: remove consecutive equal elements. -/
def dedupAdj [DecidableEq α] : List α → List α
  | [] => []
  | [x] => [x]
  | x :: y :: r => if x = y then dedupAdj (y :: r) else x :: dedupAdj (y :: r)

/-- `^STM32L0.1`-style test of `FEATURE_DEPENDENCIES` (src/main.rs lines
172-185): literal `STM32L0`, one arbitrary non-newline character, then the
digit `c`, anywhere at the start of the name. -/
def l0Match (mcu : String) (c : Char) : Bool :=
  let cs := mcu.data
  List.isPrefixOf "STM32L0".data cs
    && (match (cs.drop 7).head? with
        | some ch => ch != '\n'
        | none => false)
    && ((cs.drop 8).head? == some c)

/-- The extra feature dependencies for a family.  The three `STM32L0`
patterns are mutually exclusive, so the break-on-first-match over the inner
`HashMap` is order-independent. -/
def featureDeps (family mcu : String) : List String :=
  if family = "STM32L0" then
    if l0Match mcu '1' then ["stm32l0x1"]
    else if l0Match mcu '2' then ["stm32l0x2"]
    else if l0Match mcu '3' then ["stm32l0x3"]
    else []
  else []

/-- `HashMap::get` on the package map. -/
def hmGet (m : List (String × String)) (k : String) : Option String :=
  (m.find? (fun e => e.1 == k)).map Prod.snd

/-- `generate_features` (src/main.rs lines 191-271), as the list of lines
printed to stdout.  `mcu_gpio` is the `mcu_gpio_map` `HashMap` *in its
iteration order*: the function's first argument order models the randomized
per-process iteration order of `std::collections::HashMap`. -/
def generate_features (mcu_gpio : List (String × List String))
    (mcu_package : List (String × String)) (mcu_family : String) :
    Except String (List String) :=
  match mcu_gpio.mapM (fun e => (gpio_version_to_feature e.1).map (fun f => (e.1, e.2, f))) with
  | .error e => .error e
  | .ok fpairs =>
    let main_features := sortByCmp strLexCmp (fpairs.map (fun x => x.2.2))
    let debugLines := fpairs.map (fun x =>
      "gpio_version_feature: " ++ rustDebugStr x.1 ++ " " ++ rustDebugList x.2.1)
    let mcu_aliases := fpairs.foldl (fun acc x =>
      acc ++ x.2.1.map (fun mcu =>
        let deps := [x.2.2] ++ featureDeps mcu_family mcu
          ++ (match hmGet mcu_package mcu with
              | some p => [strLower p]
              | none => [])
        "mcu-" ++ mcu ++ " = ["
          ++ String.intercalate ", " (deps.map (fun d => "\"" ++ d ++ "\"")) ++ "]")) []
    let mcu_aliases := sortByCmp strLexCmp mcu_aliases
    .ok (debugLines
      ++ ["# Features based on the GPIO peripheral version",
          "# This determines the pin function mapping of the MCU"]
      ++ main_features.map (fun f => f ++ " = []")
      ++ [""]
      ++ (if !mcu_package.isEmpty then
            let packages := dedupAdj (sortByCmp compare_str (mcu_package.map (fun e => strLower e.2)))
            ["# Physical packages"] ++ packages.map (fun p => p ++ " = []") ++ [""]
          else [])
      ++ ["# MCUs"] ++ mcu_aliases)

/-! ## The combine-mode collection and grouping of `generate_pin_mappings`
(src/main.rs lines 384-458) -/

/-- The `grouped_mcus` of one pin leaf: the union over the pin's gpio groups
of the *first* gpio version's MCU set (the loop `break`s after the first
version). -/
def leafMcus (gpioMap : AfTreeGpios) : AfTreeMcus :=
  gpioMap.foldl (fun acc e =>
    match e.2 with
    | [] => acc
    | v :: _ => setUnion cmpSS acc v.2) []

/-- `*_collect.entry(k).or_insert_with(BTreeSet::new).extend(ms)`. -/
def cextend {κ : Type} (ck : κ → κ → Ordering) (k : κ) (ms : AfTreeMcus)
    (m : List (κ × AfTreeMcus)) : List (κ × AfTreeMcus) :=
  (entryUpd ck k [] (fun s => (setUnion cmpSS s ms, ())) m).1

/-- `grouped_mcus_af`: the union of `grouped_mcus` over the pins of one
`(af, io)` entry. -/
def pinsUnion (pinMap : AfTreePins) : AfTreeMcus :=
  pinMap.foldl (fun acc pe => setUnion cmpSS acc (leafMcus pe.2.2)) []

/-- `grouped_mcus_dev`: the union of `grouped_mcus_af` over the ios of one
device. -/
def devUnion (ios : AfTreeIos) : AfTreeMcus :=
  ios.foldl (fun acc ie => setUnion cmpSS acc (pinsUnion ie.2.2)) []

/-- `devs_collect`: per device name, the union of MCU names over all leaves
referencing it. -/
def devsCollect (entries : List (SortedString × AfTreeDevs)) :
    List (SortedString × AfTreeMcus) :=
  entries.foldl (fun m se =>
    se.2.foldl (fun m de => cextend cmpSS de.1 (devUnion de.2) m) m) []

/-- `gpio_afs_collect`: per alternate-function code. -/
def afsCollect (entries : List (SortedString × AfTreeDevs)) :
    List (SortedString × AfTreeMcus) :=
  entries.foldl (fun m se =>
    se.2.foldl (fun m de =>
      de.2.foldl (fun m ie => cextend cmpSS ie.1.1 (pinsUnion ie.2.2) m) m) m) []

/-- `gpios_collect`: per pin location. -/
def gpiosCollect (entries : List (SortedString × AfTreeDevs)) :
    List ((String × Nat) × AfTreeMcus) :=
  entries.foldl (fun m se =>
    se.2.foldl (fun m de =>
      de.2.foldl (fun m ie =>
        ie.2.2.foldl (fun m pe => cextend cmpPin pe.1 (leafMcus pe.2.2) m) m) m) m) []

/-- `io_traits_collect`: per `(io_name, io)` (interface, role) pair. -/
def ioTraitsCollect (entries : List (SortedString × AfTreeDevs)) :
    List ((SortedString × String) × AfTreeMcus) :=
  entries.foldl (fun m se =>
    se.2.foldl (fun m de =>
      de.2.foldl (fun m ie =>
        cextend cmpIor (⟨ie.2.1⟩, ie.1.2.val) (pinsUnion ie.2.2) m) m) m) []

/-- `groups.entry(mcus).or_insert_with(..).insert(k)`, where the group key is
the collected MCU set compared by `BTreeSet` value-equality (`keq`). -/
def gInsert {κ σ γ : Type} (keq : σ → σ → Bool) (ins : κ → γ → γ) (dflt : γ)
    (s : σ) (k : κ) : List (σ × γ) → List (σ × γ)
  | [] => [(s, ins k dflt)]
  | (s', g) :: r =>
    if keq s s' then (s', ins k g) :: r else (s', g) :: gInsert keq ins dflt s k r

/-- The grouping loops of `generate_pin_mappings` (src/main.rs lines
437-458): fold every collected `(value, mcu_set)` pair into groups keyed by
the mcu set. -/
def groupFold {κ σ γ : Type} (keq : σ → σ → Bool) (ins : κ → γ → γ) (dflt : γ) :
    List (κ × σ) → List (σ × γ) → List (σ × γ)
  | [], g => g
  | e :: r, g => groupFold keq ins dflt r (gInsert keq ins dflt e.2 e.1 g)

/-- Two values are in the same output group. -/
def sameGroupB {κ σ γ : Type} (memB : κ → γ → Bool) (grps : List (σ × γ))
    (k1 k2 : κ) : Bool :=
  grps.any (fun p => memB k1 p.2 && memB k2 p.2)

def devsGrouped (entries : List (SortedString × AfTreeDevs)) :
    List (AfTreeMcus × List SortedString) :=
  groupFold (setEqB cmpSS) (setInsert cmpSS) [] (devsCollect entries) []

def afsGrouped (entries : List (SortedString × AfTreeDevs)) :
    List (AfTreeMcus × List SortedString) :=
  groupFold (setEqB cmpSS) (setInsert cmpSS) [] (afsCollect entries) []

def ioTraitsGrouped (entries : List (SortedString × AfTreeDevs)) :
    List (AfTreeMcus × List (SortedString × String)) :=
  groupFold (setEqB cmpSS) (setInsert cmpIor) [] (ioTraitsCollect entries) []

/-- `format!("gpio{}", port[1..].to_lowercase())` (src/main.rs line 456). -/
def gpioKeyOf (pin : String × Nat) : SortedString :=
  ⟨"gpio" ++ strLower (String.mk (pin.1.data.drop 1))⟩

/-- The two-level insertion of the gpio-pins view (src/main.rs lines
454-458). -/
def gpioIns (pin : String × Nat) (g : List (SortedString × List (String × Nat))) :
    List (SortedString × List (String × Nat)) :=
  (entryUpd cmpSS (gpioKeyOf pin) [] (fun s => (setInsert cmpPin pin s, ())) g).1

def gpioMemB (pin : String × Nat) (g : List (SortedString × List (String × Nat))) : Bool :=
  g.any (fun e => setMemB cmpPin pin e.2)

def gpiosGrouped (entries : List (SortedString × AfTreeDevs)) :
    List (AfTreeMcus × List (SortedString × List (String × Nat))) :=
  groupFold (setEqB cmpSS) gpioIns [] (gpiosCollect entries) []

/-! ### Correctness of the grouping: same group iff equal collected sets -/

section Grouping

variable {κ σ γ : Type}
variable {keq : σ → σ → Bool} {ins : κ → γ → γ} {memB : κ → γ → Bool} {dflt : γ}

/-- Specification of one `gInsert` step, relative to the pairs `P` already
folded in. -/
theorem gInsert_spec
    (hsymm : ∀ a b, keq a b = keq b a)
    (htrans : ∀ a b c, keq a b = true → keq b c = true → keq a c = true)
    (hrefl : ∀ a, keq a a = true)
    (hmem_ins : ∀ k k' g, memB k (ins k' g) = true ↔ k = k' ∨ memB k g = true)
    (hmem_dflt : ∀ k, memB k dflt = false)
    (s : σ) (k : κ) (P : List (κ × σ)) :
    ∀ (G : List (σ × γ)),
      List.Pairwise (fun p q => keq p.1 q.1 = false) G →
      (∀ p ∈ G, ∀ k0, memB k0 p.2 = true ↔ ∃ s0, (k0, s0) ∈ P ∧ keq s0 p.1 = true) →
      (∀ k0 s0, (k0, s0) ∈ P → keq s0 s = true → ∃ p ∈ G, keq s0 p.1 = true) →
      (∀ q ∈ gInsert keq ins dflt s k G, (∃ p ∈ G, q.1 = p.1) ∨ q.1 = s)
      ∧ List.Pairwise (fun p q => keq p.1 q.1 = false) (gInsert keq ins dflt s k G)
      ∧ (∀ q ∈ gInsert keq ins dflt s k G, ∀ k0,
          memB k0 q.2 = true ↔ ∃ s0, (k0, s0) ∈ P ++ [(k, s)] ∧ keq s0 q.1 = true)
      ∧ (∀ p ∈ G, ∃ q ∈ gInsert keq ins dflt s k G, q.1 = p.1)
      ∧ (∃ q ∈ gInsert keq ins dflt s k G, keq s q.1 = true) := by
  intro G
  induction G with
  | nil =>
    intro _ _ hscan
    refine ⟨?_, ?_, ?_, ?_, ?_⟩
    · intro q hq
      rcases List.mem_singleton.mp hq with rfl
      exact Or.inr rfl
    · exact List.pairwise_singleton _ _
    · intro q hq k0
      rcases List.mem_singleton.mp hq with rfl
      simp only
      rw [hmem_ins]
      simp only [hmem_dflt, Bool.false_eq_true, or_false]
      constructor
      · rintro rfl
        exact ⟨s, by simp, hrefl s⟩
      · rintro ⟨s0, hs0, hks⟩
        rcases List.mem_append.mp hs0 with hP | hNew
        · exact absurd (hscan k0 s0 hP hks) (by simp)
        · exact congrArg Prod.fst (List.mem_singleton.mp hNew)
    · intro p hp
      exact absurd hp (List.not_mem_nil p)
    · exact ⟨(s, ins k dflt), List.mem_singleton_self _, hrefl s⟩
  | cons hd tl ih =>
    obtain ⟨s', g⟩ := hd
    intro hpw hmem hscan
    rw [List.pairwise_cons] at hpw
    by_cases hke : keq s s' = true
    · -- the new pair joins the head group
      simp only [gInsert, hke, if_pos]
      refine ⟨?_, ?_, ?_, ?_, ?_⟩
      · intro q hq
        rcases List.mem_cons.mp hq with rfl | hq
        · exact Or.inl ⟨(s', g), List.mem_cons_self _ _, rfl⟩
        · exact Or.inl ⟨q, List.mem_cons_of_mem _ hq, rfl⟩
      · rw [List.pairwise_cons]
        exact ⟨hpw.1, hpw.2⟩
      · intro q hq k0
        rcases List.mem_cons.mp hq with rfl | hq
        · simp only
          rw [hmem_ins]
          rw [hmem (s', g) (List.mem_cons_self _ _) k0]
          constructor
          · rintro (rfl | ⟨s0, hs0, hks⟩)
            · exact ⟨s, List.mem_append.mpr (Or.inr (List.mem_singleton_self _)), hke⟩
            · exact ⟨s0, List.mem_append.mpr (Or.inl hs0), hks⟩
          · rintro ⟨s0, hs0, hks⟩
            rcases List.mem_append.mp hs0 with hP | hNew
            · exact Or.inr ⟨s0, hP, hks⟩
            · exact Or.inl (congrArg Prod.fst (List.mem_singleton.mp hNew))
        · rw [hmem q (List.mem_cons_of_mem _ hq) k0]
          constructor
          · rintro ⟨s0, hs0, hks⟩
            exact ⟨s0, List.mem_append.mpr (Or.inl hs0), hks⟩
          · rintro ⟨s0, hs0, hks⟩
            rcases List.mem_append.mp hs0 with hP | hNew
            · exact ⟨s0, hP, hks⟩
            · have heq := List.mem_singleton.mp hNew
              have h2 : s0 = s := congrArg Prod.snd heq
              have hsq : keq s' q.1 = false := hpw.1 q hq
              have hst : keq s' q.1 = true :=
                htrans s' s q.1 (by rw [hsymm]; exact hke) (h2 ▸ hks)
              rw [hst] at hsq
              exact absurd hsq (by simp)
      · intro p hp
        rcases List.mem_cons.mp hp with rfl | hp
        · exact ⟨(s', ins k g), List.mem_cons_self _ _, rfl⟩
        · exact ⟨p, List.mem_cons_of_mem _ hp, rfl⟩
      · exact ⟨(s', ins k g), List.mem_cons_self _ _, hke⟩
    · -- the head group does not match: recurse
      have hke' : keq s s' = false := by
        cases hb : keq s s' with
        | true => exact absurd hb hke
        | false => rfl
      simp only [gInsert, hke', Bool.false_eq_true, if_neg, not_false_iff]
      have htl := ih hpw.2
        (fun p hp k0 => hmem p (List.mem_cons_of_mem _ hp) k0)
        (fun k0 s0 hP hks => by
          rcases hscan k0 s0 hP hks with ⟨p, hp, hkp⟩
          rcases List.mem_cons.mp hp with rfl | hp
          · exfalso
            have : keq s s' = true := by
              have h1 : keq s s0 = true := by rw [hsymm]; exact hks
              exact htrans s s0 s' h1 hkp
            rw [this] at hke'
            exact absurd hke' (by simp)
          · exact ⟨p, hp, hkp⟩)
      refine ⟨?_, ?_, ?_, ?_, ?_⟩
      · intro q hq
        rcases List.mem_cons.mp hq with rfl | hq
        · exact Or.inl ⟨(s', g), List.mem_cons_self _ _, rfl⟩
        · rcases htl.1 q hq with ⟨p, hp, hqp⟩ | hqs
          · exact Or.inl ⟨p, List.mem_cons_of_mem _ hp, hqp⟩
          · exact Or.inr hqs
      · rw [List.pairwise_cons]
        refine ⟨?_, htl.2.1⟩
        intro q hq
        rcases htl.1 q hq with ⟨p, hp, hqp⟩ | hqs
        · rw [hqp]
          exact hpw.1 p hp
        · rw [hqs, hsymm]
          exact hke'
      · intro q hq k0
        rcases List.mem_cons.mp hq with rfl | hq
        · rw [hmem (s', g) (List.mem_cons_self _ _) k0]
          constructor
          · rintro ⟨s0, hs0, hks⟩
            exact ⟨s0, List.mem_append.mpr (Or.inl hs0), hks⟩
          · rintro ⟨s0, hs0, hks⟩
            rcases List.mem_append.mp hs0 with hP | hNew
            · exact ⟨s0, hP, hks⟩
            · rcases List.mem_singleton.mp hNew with heq
              injection heq with h1 h2
              subst h1; subst h2
              simp only at hks
              rw [hks] at hke'
              exact absurd hke' (by simp)
        · exact htl.2.2.1 q hq k0
      · intro p hp
        rcases List.mem_cons.mp hp with rfl | hp
        · exact ⟨(s', g), List.mem_cons_self _ _, rfl⟩
        · rcases htl.2.2.2.1 p hp with ⟨q, hq, hqp⟩
          exact ⟨q, List.mem_cons_of_mem _ hq, hqp⟩
      · rcases htl.2.2.2.2 with ⟨q, hq, hqs⟩
        exact ⟨q, List.mem_cons_of_mem _ hq, hqs⟩

end Grouping

section GroupingMain

variable {κ σ γ : Type}
variable {keq : σ → σ → Bool} {ins : κ → γ → γ} {memB : κ → γ → Bool} {dflt : γ}

/-- Invariant of the grouping fold over the whole processed list. -/
theorem groupFold_spec
    (hsymm : ∀ a b, keq a b = keq b a)
    (htrans : ∀ a b c, keq a b = true → keq b c = true → keq a c = true)
    (hrefl : ∀ a, keq a a = true)
    (hmem_ins : ∀ k k' g, memB k (ins k' g) = true ↔ k = k' ∨ memB k g = true)
    (hmem_dflt : ∀ k, memB k dflt = false)
    (L : List (κ × σ)) :
    ∀ (P : List (κ × σ)) (G : List (σ × γ)),
      List.Pairwise (fun p q => keq p.1 q.1 = false) G →
      (∀ p ∈ G, ∀ k0, memB k0 p.2 = true ↔ ∃ s0, (k0, s0) ∈ P ∧ keq s0 p.1 = true) →
      (∀ k0 s0, (k0, s0) ∈ P → ∃ p ∈ G, keq s0 p.1 = true) →
      List.Pairwise (fun p q => keq p.1 q.1 = false) (groupFold keq ins dflt L G)
      ∧ (∀ p ∈ groupFold keq ins dflt L G, ∀ k0,
          memB k0 p.2 = true ↔ ∃ s0, (k0, s0) ∈ P ++ L ∧ keq s0 p.1 = true)
      ∧ (∀ k0 s0, (k0, s0) ∈ P ++ L → ∃ p ∈ groupFold keq ins dflt L G, keq s0 p.1 = true) := by
  induction L with
  | nil =>
    intro P G hpw hmem hall
    simp only [groupFold, List.append_nil]
    exact ⟨hpw, hmem, hall⟩
  | cons e L ih =>
    obtain ⟨k, s⟩ := e
    intro P G hpw hmem hall
    have hstep := gInsert_spec hsymm htrans hrefl hmem_ins hmem_dflt s k P G hpw hmem
      (fun k0 s0 hP _ => hall k0 s0 hP)
    have hall' : ∀ k0 s0, (k0, s0) ∈ P ++ [(k, s)] →
        ∃ p ∈ gInsert keq ins dflt s k G, keq s0 p.1 = true := by
      intro k0 s0 hm
      rcases List.mem_append.mp hm with hP | hNew
      · rcases hall k0 s0 hP with ⟨p, hp, hkp⟩
        rcases hstep.2.2.2.1 p hp with ⟨q, hq, hqp⟩
        exact ⟨q, hq, by rw [hqp]; exact hkp⟩
      · have heq := List.mem_singleton.mp hNew
        have h2 : s0 = s := congrArg Prod.snd heq
        rcases hstep.2.2.2.2 with ⟨q, hq, hqs⟩
        exact ⟨q, hq, by rw [h2]; exact hqs⟩
    have := ih (P ++ [(k, s)]) (gInsert keq ins dflt s k G) hstep.2.1 hstep.2.2.1 hall'
    simp only [groupFold]
    rw [show P ++ (k, s) :: L = (P ++ [(k, s)]) ++ L by simp]
    exact this

/-- Two bindings with the same key in a key-nodup list have equal values. -/
theorem nodupKeys_val_eq {κ σ : Type} {L : List (κ × σ)}
    (hnd : (L.map Prod.fst).Nodup) {k : κ} {a b : σ}
    (ha : (k, a) ∈ L) (hb : (k, b) ∈ L) : a = b := by
  induction L with
  | nil => exact absurd ha (List.not_mem_nil _)
  | cons e L ih =>
    simp only [List.map_cons, List.nodup_cons] at hnd
    rcases List.mem_cons.mp ha with rfl | ha'
    · rcases List.mem_cons.mp hb with hbe | hb'
      · exact (congrArg Prod.snd hbe.symm)
      · exact absurd (List.mem_map.mpr ⟨(k, b), hb', rfl⟩) hnd.1
    · rcases List.mem_cons.mp hb with rfl | hb'
      · exact absurd (List.mem_map.mpr ⟨(k, a), ha', rfl⟩) hnd.1
      · exact ih hnd.2 ha' hb'

/-- Main grouping theorem: after folding a key-distinct collected list into
groups keyed by the collected set, two values share a group exactly when
their collected sets are `keq`-equal. -/
theorem groupFold_sameGroup
    (hsymm : ∀ a b, keq a b = keq b a)
    (htrans : ∀ a b c, keq a b = true → keq b c = true → keq a c = true)
    (hrefl : ∀ a, keq a a = true)
    (hmem_ins : ∀ k k' g, memB k (ins k' g) = true ↔ k = k' ∨ memB k g = true)
    (hmem_dflt : ∀ k, memB k dflt = false)
    (L : List (κ × σ)) (hnd : (L.map Prod.fst).Nodup)
    (k1 k2 : κ) (s1 s2 : σ) (h1 : (k1, s1) ∈ L) (h2 : (k2, s2) ∈ L) :
    sameGroupB memB (groupFold keq ins dflt L []) k1 k2 = keq s1 s2 := by
  have hspec := groupFold_spec hsymm htrans hrefl hmem_ins hmem_dflt L [] []
    (List.Pairwise.nil) (by intro p hp; exact absurd hp (List.not_mem_nil _))
    (by intro k0 s0 h0; exact absurd h0 (List.not_mem_nil _))
  simp only [List.nil_append] at hspec
  cases hb : keq s1 s2 with
  | true =>
    rcases hspec.2.2 k1 s1 h1 with ⟨p, hp, hkp⟩
    have hm1 : memB k1 p.2 = true := (hspec.2.1 p hp k1).mpr ⟨s1, h1, hkp⟩
    have hk2p : keq s2 p.1 = true := htrans s2 s1 p.1 (by rw [hsymm]; exact hb) hkp
    have hm2 : memB k2 p.2 = true := (hspec.2.1 p hp k2).mpr ⟨s2, h2, hk2p⟩
    unfold sameGroupB
    rw [List.any_eq_true]
    exact ⟨p, hp, by rw [hm1, hm2]; rfl⟩
  | false =>
    unfold sameGroupB
    cases hany : (groupFold keq ins dflt L []).any (fun p => memB k1 p.2 && memB k2 p.2) with
    | false => rfl
    | true =>
      exfalso
      rcases List.any_eq_true.mp hany with ⟨p, hp, hmm⟩
      rw [Bool.and_eq_true] at hmm
      rcases (hspec.2.1 p hp k1).mp hmm.1 with ⟨s1', hs1', hk1⟩
      rcases (hspec.2.1 p hp k2).mp hmm.2 with ⟨s2', hs2', hk2⟩
      have e1 : s1' = s1 := nodupKeys_val_eq hnd hs1' h1
      have e2 : s2' = s2 := nodupKeys_val_eq hnd hs2' h2
      rw [e1] at hk1
      rw [e2] at hk2
      have hcon : keq s1 s2 = true :=
        htrans s1 p.1 s2 hk1 (by rw [hsymm]; exact hk2)
      rw [hcon] at hb
      exact absurd hb (by simp)

end GroupingMain

/-! ### Instantiation lemmas for the four views -/

theorem foldl_preserve {α β : Type} (P : α → Prop) (f : α → β → α)
    (hf : ∀ a b, P a → P (f a b)) :
    ∀ (l : List β) (a : α), P a → P (l.foldl f a) := by
  intro l
  induction l with
  | nil => intro a ha; exact ha
  | cons b l ih => intro a ha; exact ih (f a b) (hf a b ha)

theorem cextend_keys_nodup {κ : Type} {ck : κ → κ → Ordering} (h : LawEq ck)
    (k : κ) (ms : AfTreeMcus) (m : List (κ × AfTreeMcus))
    (hnd : (m.map Prod.fst).Nodup) : ((cextend ck k ms m).map Prod.fst).Nodup :=
  entryUpd_keys_nodup h k [] _ m hnd

theorem devsCollect_keys_nodup (entries : List (SortedString × AfTreeDevs)) :
    ((devsCollect entries).map Prod.fst).Nodup := by
  unfold devsCollect
  exact foldl_preserve
    (fun (m : List (SortedString × AfTreeMcus)) => (m.map Prod.fst).Nodup) _
    (fun m se hm =>
      foldl_preserve
        (fun (m : List (SortedString × AfTreeMcus)) => (m.map Prod.fst).Nodup) _
        (fun m de hm => cextend_keys_nodup cmpSS_lawEq _ _ _ hm) se.2 m hm)
    entries [] (by simp)

theorem afsCollect_keys_nodup (entries : List (SortedString × AfTreeDevs)) :
    ((afsCollect entries).map Prod.fst).Nodup := by
  unfold afsCollect
  exact foldl_preserve
    (fun (m : List (SortedString × AfTreeMcus)) => (m.map Prod.fst).Nodup) _
    (fun m se hm =>
      foldl_preserve
        (fun (m : List (SortedString × AfTreeMcus)) => (m.map Prod.fst).Nodup) _
        (fun m de hm =>
          foldl_preserve
            (fun (m : List (SortedString × AfTreeMcus)) => (m.map Prod.fst).Nodup) _
            (fun m ie hm => cextend_keys_nodup cmpSS_lawEq _ _ _ hm) de.2 m hm)
        se.2 m hm)
    entries [] (by simp)

theorem gpiosCollect_keys_nodup (entries : List (SortedString × AfTreeDevs)) :
    ((gpiosCollect entries).map Prod.fst).Nodup := by
  unfold gpiosCollect
  exact foldl_preserve
    (fun (m : List ((String × Nat) × AfTreeMcus)) => (m.map Prod.fst).Nodup) _
    (fun m se hm =>
      foldl_preserve
        (fun (m : List ((String × Nat) × AfTreeMcus)) => (m.map Prod.fst).Nodup) _
        (fun m de hm =>
          foldl_preserve
            (fun (m : List ((String × Nat) × AfTreeMcus)) => (m.map Prod.fst).Nodup) _
            (fun m ie hm =>
              foldl_preserve
                (fun (m : List ((String × Nat) × AfTreeMcus)) => (m.map Prod.fst).Nodup) _
                (fun m pe hm => cextend_keys_nodup cmpPin_lawEq _ _ _ hm) ie.2.2 m hm)
            de.2 m hm)
        se.2 m hm)
    entries [] (by simp)

theorem ioTraitsCollect_keys_nodup (entries : List (SortedString × AfTreeDevs)) :
    ((ioTraitsCollect entries).map Prod.fst).Nodup := by
  unfold ioTraitsCollect
  exact foldl_preserve
    (fun (m : List ((SortedString × String) × AfTreeMcus)) => (m.map Prod.fst).Nodup) _
    (fun m se hm =>
      foldl_preserve
        (fun (m : List ((SortedString × String) × AfTreeMcus)) => (m.map Prod.fst).Nodup) _
        (fun m de hm =>
          foldl_preserve
            (fun (m : List ((SortedString × String) × AfTreeMcus)) => (m.map Prod.fst).Nodup) _
            (fun m ie hm => cextend_keys_nodup cmpIor_lawEq _ _ _ hm) de.2 m hm)
        se.2 m hm)
    entries [] (by simp)

/-- Membership axiom of the two-level gpio-pins view. -/
theorem gpioMemB_ins (pin pin' : String × Nat)
    (g : List (SortedString × List (String × Nat))) :
    gpioMemB pin (gpioIns pin' g) = true ↔ pin = pin' ∨ gpioMemB pin g = true := by
  induction g with
  | nil =>
    unfold gpioIns entryUpd gpioMemB
    simp only [List.any_cons, List.any_nil, Bool.or_false]
    rw [setMemB_insert cmpPin_lawEq]
    simp [setMemB]
  | cons e r ih =>
    obtain ⟨n, s⟩ := e
    by_cases hk : cmpSS (gpioKeyOf pin') n = .eq
    · unfold gpioIns entryUpd
      simp only [hk, if_pos]
      unfold gpioMemB
      simp only [List.any_cons]
      rw [Bool.or_eq_true, Bool.or_eq_true]
      rw [setMemB_insert cmpPin_lawEq]
      tauto
    · unfold gpioIns entryUpd
      simp only [hk, if_neg, Bool.false_eq_true, not_false_iff]
      unfold gpioMemB
      simp only [List.any_cons]
      rw [Bool.or_eq_true, Bool.or_eq_true]
      unfold gpioIns at ih
      unfold gpioMemB at ih
      rw [ih]
      tauto

theorem insertSignal_spec (stem dev : SortedString) (afio : SortedString × SortedString)
    (ioName : String) (pin : String × Nat) (nm gm gv : String)
    (mNew mOld : AfTreeMcus) (t : AfTreeStems)
    (h5 : lookupPath t stem dev afio pin ⟨gm⟩ ⟨gv⟩ = some mOld) :
    lookupPath (insertSignal stem dev afio ioName pin nm gm gv mNew t).1
        stem dev afio pin ⟨gm⟩ ⟨gv⟩ = some mNew
    ∧ (insertSignal stem dev afio ioName pin nm gm gv mNew t).2 = true := by
  unfold lookupPath at h5
  rcases Option.bind_eq_some.mp h5 with ⟨devs, hstem, h5a⟩
  rcases Option.bind_eq_some.mp h5a with ⟨ios, hdev, h5b⟩
  rcases Option.bind_eq_some.mp h5b with ⟨iv, hafio, h5c⟩
  rcases Option.bind_eq_some.mp h5c with ⟨pv, hpin, h5d⟩
  rcases Option.bind_eq_some.mp h5d with ⟨vers, hgm, hgv⟩
  constructor
  · unfold lookupPath insertSignal
    rw [mfind_entryUpd_self cmpSS_lawEq, hstem]
    simp only [Option.getD_some, Option.some_bind]
    rw [mfind_entryUpd_self cmpSS_lawEq, hdev]
    simp only [Option.getD_some, Option.some_bind]
    rw [mfind_entryUpd_self cmpAfIo_lawEq, hafio]
    simp only [Option.getD_some, Option.some_bind]
    rw [mfind_entryUpd_self cmpPin_lawEq, hpin]
    simp only [Option.getD_some, Option.some_bind]
    unfold updatePinEntry insertGpioVersion
    rw [mfind_entryUpd_self cmpSS_lawEq, hgm]
    simp only [Option.getD_some, Option.some_bind]
    exact mfind_minsertRet_self cmpSS_lawEq _ _ _
  · unfold insertSignal
    rw [entryUpd_snd, hstem]
    simp only [Option.getD_some]
    rw [entryUpd_snd, hdev]
    simp only [Option.getD_some]
    rw [entryUpd_snd, hafio]
    simp only [Option.getD_some]
    rw [entryUpd_snd, hpin]
    simp only [Option.getD_some]
    unfold updatePinEntry insertGpioVersion
    rw [entryUpd_snd, hgm]
    simp only [Option.getD_some]
    rw [minsertRet_fst, hgv]
    rfl

/-! ## Demo fixtures used by witnesses and counterexamples -/

/-- A pin record carrying one `USART1_TX` signal on `PA9`. -/
def sigW : PinSignal := ⟨"USART1_TX", ⟨"GPIO_AF", ⟨"GPIO_AF7_USART1"⟩⟩⟩

def pinW : GPIOPin :=
  { port_name := "PA", name := "PA9",
    specific_parameter := [⟨"GPIO_Pin", ⟨"GPIO_PIN_9"⟩⟩],
    pin_signal := some [sigW] }

/-- The tree after inserting `pinW` for mcu set `{m1}`. -/
def tW1 : AfTreeStems :=
  ((pinW.update_af_tree "g" "v" [⟨"m1"⟩] []).toOption.getD ([], [])).1

/-- The tree after a second, colliding insertion for mcu set `{m2}`. -/
def tW2 : AfTreeStems :=
  ((pinW.update_af_tree "g" "v" [⟨"m2"⟩] tW1).toOption.getD ([], [])).1

/-- C1 (amended): inserting a second `(gpio_version → mcu_set)` entry under an
identical key path retains exactly one value, the LAST-inserted one
(`BTreeMap::insert` replaces), logs exactly one duplicate conflict, and
discards the earlier entry. -/
theorem update_af_tree_conflict_last_wins
    (p : GPIOPin) (sig : PinSignal) (gm gv : String) (pr : SigParse) (af : String)
    (mNew mOld : AfTreeMcus) (t : AfTreeStems) (pinNr : Nat)
    (h1 : p.pin_signal = some [sig])
    (h2 : p.get_pin_nr = .ok (some pinNr))
    (h3 : sigMatch sig.name = some pr)
    (h4 : afMatch sig.specific_parameter.possible_value.val = some af)
    (h5 : lookupPath t ⟨pr.stem⟩ ⟨pr.dev⟩ (⟨af⟩, ⟨(defaultIo pr.stem pr.io).1⟩)
        (p.port_name, pinNr) ⟨gm⟩ ⟨gv⟩ = some mOld)
    (h6 : mNew ≠ mOld) :
    ∃ t' ws, p.update_af_tree gm gv mNew t = .ok (t', ws)
      ∧ lookupPath t' ⟨pr.stem⟩ ⟨pr.dev⟩ (⟨af⟩, ⟨(defaultIo pr.stem pr.io).1⟩)
          (p.port_name, pinNr) ⟨gm⟩ ⟨gv⟩ = some mNew
      ∧ (ws.filter Warning.isDupVersion).length = 1 := by
  have hspec := insertSignal_spec ⟨pr.stem⟩ ⟨pr.dev⟩ (⟨af⟩, ⟨(defaultIo pr.stem pr.io).1⟩)
    ("Pin" ++ toPascalCase (defaultIo pr.stem pr.io).1) (p.port_name, pinNr)
    p.name gm gv mNew mOld t h5
  refine ⟨(insertSignal ⟨pr.stem⟩ ⟨pr.dev⟩ (⟨af⟩, ⟨(defaultIo pr.stem pr.io).1⟩)
      ("Pin" ++ toPascalCase (defaultIo pr.stem pr.io).1) (p.port_name, pinNr)
      p.name gm gv mNew t).1,
    (if (defaultIo pr.stem pr.io).2 then [Warning.missingIo pr.stem pr.dev] else [])
      ++ [Warning.dupVersion pr.stem pr.dev af (defaultIo pr.stem pr.io).1 gm gv],
    ?_, ?_, ?_⟩
  · simp only [GPIOPin.update_af_tree, h2, h1, List.foldl_cons, List.foldl_nil,
      processSignal, h3, h4]
    rw [hspec.2]
    simp only [if_true, List.nil_append]
  · exact hspec.1
  · cases hio : (defaultIo pr.stem pr.io).2 with
    | true => simp [Warning.isDupVersion]
    | false => simp [Warning.isDupVersion]

/-- C1 witness: concrete colliding insertion. -/
theorem update_af_tree_conflict_last_wins_witness :
    ∃ t' ws, pinW.update_af_tree "g" "v" [⟨"m2"⟩] tW1 = .ok (t', ws)
      ∧ lookupPath t' ⟨"USART"⟩ ⟨"USART1"⟩ (⟨"AF7"⟩, ⟨"TX"⟩) ("PA", 9) ⟨"g"⟩ ⟨"v"⟩
          = some [⟨"m2"⟩]
      ∧ (ws.filter Warning.isDupVersion).length = 1 :=
  update_af_tree_conflict_last_wins pinW sigW "g" "v" ⟨"USART", "USART1", some "TX"⟩
    "AF7" [⟨"m2"⟩] [⟨"m1"⟩] tW1 9 (by decide) (by decide) (by decide) (by decide)
    (by decide) (by decide)

/-- C1 counterexample: the claim says the FIRST-inserted value survives a
collision; in fact the second insertion replaces it.  After inserting
`{m1}` and then `{m2}` under the same key path, the retained value is
`{m2}`, not the first-inserted `{m1}`. -/
theorem update_af_tree_fifo_counterexample :
    pinW.update_af_tree "g" "v" [⟨"m1"⟩] [] = .ok (tW1, [])
    ∧ lookupPath tW1 ⟨"USART"⟩ ⟨"USART1"⟩ (⟨"AF7"⟩, ⟨"TX"⟩) ("PA", 9) ⟨"g"⟩ ⟨"v"⟩
        = some [⟨"m1"⟩]
    ∧ lookupPath tW2 ⟨"USART"⟩ ⟨"USART1"⟩ (⟨"AF7"⟩, ⟨"TX"⟩) ("PA", 9) ⟨"g"⟩ ⟨"v"⟩
        = some [⟨"m2"⟩]
    ∧ ([⟨"m2"⟩] : AfTreeMcus) ≠ [⟨"m1"⟩] := by decide

def pinBad : GPIOPin :=
  { port_name := "PA", name := "PA9",
    specific_parameter := [⟨"GPIO_Pin", ⟨"GPIO_PIN"⟩⟩],
    pin_signal := some [] }

/-- C4 counterexample: `update_af_tree` is not total.  For a pin record whose
`GPIO_Pin` specific-parameter value is `"GPIO_PIN"` (only two
underscore-separated parts), `get_pin_nr` indexes `split('_')[2]` out of
bounds and the call panics instead of returning normally. -/
theorem update_af_tree_panic_counterexample :
    pinBad.update_af_tree "g" "v" [] [] = .error "index out of bounds" := by decide

/-- C4 (amended): `update_af_tree` returns normally exactly for the input
records whose first `GPIO_Pin` specific parameter (when present) has a value
with at least three underscore-separated components; for any other record
the pin-number extraction panics with an index-out-of-bounds. -/
theorem update_af_tree_total_iff_wellformed (p : GPIOPin) (gm gv : String)
    (m : AfTreeMcus) (t : AfTreeStems) :
    (p.update_af_tree gm gv m t).isOk = true
      ↔ (∀ v, p.specific_parameter.find? (fun sp => sp.name == "GPIO_Pin") = some v →
          2 < (splitOnChar '_' v.possible_value.val.data).length) := by
  unfold GPIOPin.update_af_tree GPIOPin.get_pin_nr
  cases hf : p.specific_parameter.find? (fun sp => sp.name == "GPIO_Pin") with
  | none =>
    simp only
    constructor
    · intro _ v hv
      exact absurd hv (by simp)
    · intro _
      simp [Except.isOk, Except.toBool]
  | some v =>
    simp only
    by_cases hl : 2 < (splitOnChar '_' v.possible_value.val.data).length
    · rw [dif_pos hl]
      constructor
      · intro _ v' hv'
        injection hv' with hvv
        rw [← hvv]
        exact hl
      · intro _
        cases hp : parseU32 ((splitOnChar '_' v.possible_value.val.data).get ⟨2, hl⟩) with
        | none => simp [Except.isOk, Except.toBool]
        | some nr =>
          cases hs : p.pin_signal with
          | none => simp [Except.isOk, Except.toBool]
          | some sigs => simp [Except.isOk, Except.toBool]
    · rw [dif_neg hl]
      constructor
      · intro hok
        simp [Except.isOk, Except.toBool] at hok
      · intro hall
        exact absurd (hall v rfl) hl

def emptyLoader : String → Except String (List GPIOPin) := fun g => .error ("no file: " ++ g)

/-- C3 counterexample: the engine propagates a failure that is not an invalid
filter selection: `AfTree::build` returns a descriptive error for the
unsupported `STM32F1` family. -/
theorem build_rejects_stm32f1_counterexample :
    build "STM32F1" [] emptyLoader true
      = .err "The STM32F1-family is unforunately not supported! (see \"TODO f1 compatibility\" in internal_peripherals.rs)" := rfl

theorem ordering_beq_iff (a b : Ordering) : (a == b) = true ↔ a = b := by
  cases a <;> cases b <;> simp <;> rfl

/-- C3 (amended): the aggregation engine propagates exactly two error kinds:
tree building rejects the `STM32F1` family (and errs for no other reason —
loader failures, bad names and conflicts are warn-only), and filtered
iteration rejects a selection naming a stem absent from the tree; iteration
without a selection always succeeds. -/
theorem engine_error_propagation :
    (∀ (family : String) (entries : List (String × List String))
       (loader : String → Except String (List GPIOPin)) (simplify : Bool),
       (∃ m, build family entries loader simplify = .err m) ↔ family = "STM32F1")
    ∧ (∀ (t : AfTreeStems) (sel : List String),
       (∃ m, iterStems t (some sel) = .error m)
         ↔ ∃ s ∈ sel, ∀ e ∈ t, cmpSS ⟨s⟩ e.1 ≠ .eq)
    ∧ (∀ t : AfTreeStems, ∃ r, iterStems t none = .ok r) := by
  refine ⟨?_, ?_, ?_⟩
  · intro family entries loader simplify
    unfold build
    by_cases hf : family = "STM32F1"
    · subst hf
      rw [if_pos rfl]
      constructor
      · intro _
        rfl
      · intro _
        exact ⟨_, rfl⟩
    · rw [if_neg hf]
      constructor
      · intro hm
        rcases hm with ⟨m, hm⟩
        cases hr : entries.foldlM (buildEntry loader simplify) ⟨[], [], []⟩ with
        | error e => rw [hr] at hm; exact absurd hm (by simp)
        | ok st => rw [hr] at hm; exact absurd hm (by simp)
      · intro hc
        exact absurd hc hf
  · intro t sel
    by_cases hinv : (invalidStemsOf t sel).isEmpty = true
    · simp only [iterStems, hinv, if_true]
      simp only [invalidStemsOf, List.isEmpty_iff, List.map_eq_nil_iff,
        List.filter_eq_nil_iff] at hinv
      constructor
      · rintro ⟨m, hm⟩
        exact absurd hm (by simp)
      · rintro ⟨s, hs, habs⟩
        exfalso
        have hmem : mkSS s ∈ sel.map mkSS := List.mem_map.mpr ⟨s, hs, rfl⟩
        have h1 := hinv _ hmem
        have h2 : List.any t (fun e => cmpSS (mkSS s) e.1 == Ordering.eq) = true := by
          cases hb : List.any t (fun e => cmpSS (mkSS s) e.1 == Ordering.eq) with
          | true => rfl
          | false => exact absurd (by rw [hb]; rfl) h1
        rcases List.any_eq_true.mp h2 with ⟨e, he, heq⟩
        rw [ordering_beq_iff] at heq
        exact habs e he heq
    · simp only [iterStems, hinv, if_false]
      constructor
      · intro _
        rw [Bool.not_eq_true, invalidStemsOf, List.isEmpty_eq_false_iff_exists_mem] at hinv
        rcases hinv with ⟨x, hx⟩
        rcases List.mem_map.mp hx with ⟨s, hsf, rfl⟩
        rcases List.mem_filter.mp hsf with ⟨hsel, hnone⟩
        rcases List.mem_map.mp hsel with ⟨s0, hs0, rfl⟩
        refine ⟨s0, hs0, ?_⟩
        intro e he hc
        rw [Bool.not_eq_eq_eq_not, Bool.not_true, List.any_eq_false] at hnone
        apply hnone e he
        rw [ordering_beq_iff]
        exact hc
      · intro _
        exact ⟨_, rfl⟩
  · intro t
    exact ⟨_, rfl⟩

/-- C7: filtered iteration over the tree: if some selected stem is absent the
operation returns a hard error whose message enumerates exactly the invalid
stem names (in selection order); if every selected stem is present it yields
the matching subtrees; with no selection it yields the whole tree. -/
theorem iter_invalid_stem_selection :
    (∀ (t : AfTreeStems) (sel : List String),
       invalidStemsOf t sel ≠ [] →
         iterStems t (some sel) = .error (invalidMsg (invalidStemsOf t sel)))
    ∧ (∀ (t : AfTreeStems) (sel : List String),
       invalidStemsOf t sel = [] →
         iterStems t (some sel) = .ok (t.filter (fun e => (sel.map mkSS).contains e.1)))
    ∧ (∀ t : AfTreeStems, iterStems t none = .ok t) := by
  refine ⟨?_, ?_, ?_⟩
  · intro t sel h
    simp only [iterStems]
    rw [if_neg]
    intro hc
    exact h (List.isEmpty_iff.mp hc)
  · intro t sel h
    simp only [iterStems]
    rw [if_pos (List.isEmpty_iff.mpr h)]
  · intro t
    simp only [iterStems]
    rw [List.filter_eq_self.mpr]
    intro e he
    have : e.1 ∈ t.map Prod.fst := List.mem_map.mpr ⟨e, he, rfl⟩
    exact List.elem_eq_true_of_mem this

theorem iter_invalid_stem_selection_witness :
    iterStems tW1 (some ["NOPE"]) = .error (invalidMsg (invalidStemsOf tW1 ["NOPE"])) :=
  iter_invalid_stem_selection.1 tW1 ["NOPE"] (by decide)


/-- C8: for every signal name whose parse has no io-role capture, the stem is
substituted as the io role, and the missing-role warning is emitted if and
only if the stem is not one of the two allow-listed role-less stems
(`EVENTOUT`, `CEC`). -/
theorem missing_io_role_defaulting (name : String) (pr : SigParse)
    (h1 : sigMatch name = some pr) (h2 : pr.io = none) :
    (defaultIo pr.stem pr.io).1 = pr.stem
    ∧ ((defaultIo pr.stem pr.io).2 = true ↔ pr.stem ∉ ["EVENTOUT", "CEC"])
    ∧ (∀ (p : GPIOPin) (gm gv : String) (mcus : AfTreeMcus) (pinNr : Nat)
        (t : AfTreeStems) (sig : PinSignal) (af : String),
        sig.name = name →
        afMatch sig.specific_parameter.possible_value.val = some af →
        (Warning.missingIo pr.stem pr.dev
            ∈ (processSignal p gm gv mcus pinNr (t, []) sig).2
          ↔ pr.stem ∉ ["EVENTOUT", "CEC"])) := by
  rw [h2]
  refine ⟨rfl, ?_, ?_⟩
  · unfold defaultIo
    simp only [Bool.not_eq_true']
    constructor
    · intro hb hm
      have hel : ["EVENTOUT", "CEC"].contains pr.stem = true := List.elem_iff.mpr hm
      rw [hel] at hb
      exact absurd hb (by simp)
    · intro hn
      cases hb : ["EVENTOUT", "CEC"].contains pr.stem with
      | false => rfl
      | true => exact absurd (List.elem_iff.mp hb) hn
  · intro p gm gv mcus pinNr t sig af hn haf
    simp only [processSignal, hn, h1, haf, h2]
    unfold defaultIo
    cases hc : ["EVENTOUT", "CEC"].contains pr.stem with
    | true =>
      have hmem : pr.stem ∈ ["EVENTOUT", "CEC"] := List.elem_iff.mp hc
      simp only [hc, Bool.not_true, Bool.false_eq_true, if_false, List.nil_append]
      split <;> simp [hmem]
    | false =>
      have hnmem : pr.stem ∉ ["EVENTOUT", "CEC"] := by
        intro hm
        have hel : ["EVENTOUT", "CEC"].contains pr.stem = true := List.elem_iff.mpr hm
        rw [hel] at hc
        exact absurd hc (by simp)
      simp only [hc, Bool.not_false, if_true, List.nil_append]
      split <;> simp [hnmem]

def sigU : PinSignal := ⟨"USART", ⟨"GPIO_AF", ⟨"GPIO_AF0_X"⟩⟩⟩

def pinU : GPIOPin :=
  { port_name := "PA", name := "PA0",
    specific_parameter := [⟨"GPIO_Pin", ⟨"GPIO_PIN_0"⟩⟩],
    pin_signal := some [sigU] }

/-- C8 witness: the bare signal name `USART` parses with no io role; the role
defaults to the stem and the warning is emitted since `USART` is not
allow-listed. -/
theorem missing_io_role_defaulting_witness :
    (defaultIo "USART" none).1 = "USART"
    ∧ ((defaultIo "USART" none).2 = true ↔ "USART" ∉ ["EVENTOUT", "CEC"])
    ∧ (Warning.missingIo "USART" "USART"
        ∈ (processSignal pinU "g" "v" [] 0 ([], []) sigU).2
      ↔ "USART" ∉ ["EVENTOUT", "CEC"]) :=
  let h := missing_io_role_defaulting "USART" ⟨"USART", "USART", none⟩ (by decide) rfl
  ⟨h.1, h.2.1, h.2.2 pinU "g" "v" [] 0 [] sigU "AF0" rfl (by decide)⟩

/-- C5: the signal-name parser decomposes `USART2_TX` into stem `USART`,
device `USART2`, io role `TX`, and `I2C1_SCL` into stem `I2C`, device
`I2C1`, io role `SCL`. -/
theorem sig_parser_examples :
    sigMatch "USART2_TX" = some ⟨"USART", "USART2", some "TX"⟩
    ∧ sigMatch "I2C1_SCL" = some ⟨"I2C", "I2C1", some "SCL"⟩ := by decide

/-- C9: the `SortedString` comparison is numeric-aware: `PA2 < PA10 < PB1`
(while plain lexicographic comparison would put `PA10` before `PA2`). -/
theorem sorted_string_numeric_order :
    SortedString.cmp ⟨"PA2"⟩ ⟨"PA10"⟩ = .lt
    ∧ SortedString.cmp ⟨"PA10"⟩ ⟨"PB1"⟩ = .lt
    ∧ SortedString.cmp ⟨"PA2"⟩ ⟨"PB1"⟩ = .lt
    ∧ lexCmp cmpChar "PA10".data "PA2".data = .lt := by decide

/-- The `mcu_gpio_map` content used to exhibit the order dependence of
`generate_features`: two GPIO versions, one MCU each. -/
def hmOrder1 : List (String × List String) :=
  [("A_gpio_v1_0", ["M1"]), ("B_gpio_v1_0", ["M2"])]

/-- C2: `generate_features` prints a `gpio_version_feature: ...` debug line
per map entry while iterating the `HashMap`, so its stdout depends on the
hash-map iteration order: the same map content presented in two different
iteration orders (they are permutations of each other) produces different
output text.  Since `std::collections::HashMap` iteration order is
randomized per process, stdout is not a function of the input alone. -/
theorem generate_features_depends_on_iteration_order :
    generate_features hmOrder1 [] "STM32L4" ≠ generate_features hmOrder1.reverse [] "STM32L4"
    ∧ hmOrder1.reverse.Perm hmOrder1 :=
  ⟨by decide, List.reverse_perm hmOrder1⟩

/-- C10: with MCU-name simplification enabled, the resulting leaf set
contains exactly the lowercased model prefixes of the reference names
matching `MCUS_REGEX` (e.g. `STM32L071KB` contributes `stm32l071`), and the
warned-about names are exactly the non-matching ones, which contribute
nothing to the set. -/
theorem simplifyMcus_go (mcus : List String) :
    ∀ (s0 : AfTreeMcus) (w0 : List String),
      (∀ x, setMemB cmpSS x (mcus.foldl simplifyStep (s0, w0)).1 = true
        ↔ (setMemB cmpSS x s0 = true
           ∨ ∃ mcu ∈ mcus, ∃ m, mcusParse mcu = some m ∧ x = ⟨strLower m⟩))
      ∧ (mcus.foldl simplifyStep (s0, w0)).2
          = w0 ++ mcus.filter (fun mcu => (mcusParse mcu).isNone) := by
  induction mcus with
  | nil =>
    intro s0 w0
    simp
  | cons mcu rest ih =>
    intro s0 w0
    simp only [List.foldl_cons]
    cases hp : mcusParse mcu with
    | some m =>
      simp only [simplifyStep, hp]
      have hr := ih (setInsert cmpSS ⟨strLower m⟩ s0) w0
      constructor
      · intro x
        rw [hr.1 x, setMemB_insert cmpSS_lawEq]
        simp only [List.mem_cons]
        constructor
        · rintro ((rfl | hs) | ⟨mc, hmc, m2, hp2, rfl⟩)
          · exact Or.inr ⟨mcu, Or.inl rfl, m, hp, rfl⟩
          · exact Or.inl hs
          · exact Or.inr ⟨mc, Or.inr hmc, m2, hp2, rfl⟩
        · rintro (hs | ⟨mc, (rfl | hmc), m2, hp2, rfl⟩)
          · exact Or.inl (Or.inr hs)
          · rw [hp] at hp2
            injection hp2 with he
            subst he
            exact Or.inl (Or.inl rfl)
          · exact Or.inr ⟨mc, hmc, m2, hp2, rfl⟩
      · rw [hr.2]
        simp [hp]
    | none =>
      simp only [simplifyStep, hp]
      have hr := ih s0 (w0 ++ [mcu])
      constructor
      · intro x
        rw [hr.1 x]
        simp only [List.mem_cons]
        constructor
        · rintro (hs | ⟨mc, hmc, m2, hp2, rfl⟩)
          · exact Or.inl hs
          · exact Or.inr ⟨mc, Or.inr hmc, m2, hp2, rfl⟩
        · rintro (hs | ⟨mc, (rfl | hmc), m2, hp2, rfl⟩)
          · exact Or.inl hs
          · rw [hp] at hp2
            cases hp2
          · exact Or.inr ⟨mc, hmc, m2, hp2, rfl⟩
      · rw [hr.2]
        simp [hp]

theorem simplify_mcu_names_spec (mcus : List String) :
    (∀ x : SortedString, setMemB cmpSS x (simplifyMcus mcus).1 = true
        ↔ ∃ mcu ∈ mcus, ∃ m, mcusParse mcu = some m ∧ x = ⟨strLower m⟩)
    ∧ (simplifyMcus mcus).2 = mcus.filter (fun mcu => (mcusParse mcu).isNone)
    ∧ mcusParse "STM32L071KB" = some "STM32L071"
    ∧ strLower "STM32L071" = "stm32l071"
    ∧ mcusParse "bogus" = none := by
  have h := simplifyMcus_go mcus [] []
  refine ⟨?_, ?_, by decide, by decide, by decide⟩
  · intro x
    unfold simplifyMcus
    rw [h.1 x]
    simp [setMemB]
  · unfold simplifyMcus
    rw [h.2]
    simp

/-- C6: in combine mode, two values of the same view (device names,
alternate-function codes, pin locations, or (interface, role) pairs) are
placed in the same output group if and only if the MCU-name sets collected
for them over all tree leaves are exactly equal as sets; in particular a
value whose set is unequal (e.g. a strict superset or subset of another
value's set) stays in a distinct group. -/
theorem combine_grouping_exact_set_equality
    (entries : List (SortedString × AfTreeDevs))
    (d1 d2 : SortedString) (s1 s2 : AfTreeMcus)
    (a1 a2 : SortedString) (u1 u2 : AfTreeMcus)
    (p1 p2 : String × Nat) (v1 v2 : AfTreeMcus)
    (i1 i2 : SortedString × String) (w1 w2 : AfTreeMcus)
    (hd1 : (d1, s1) ∈ devsCollect entries) (hd2 : (d2, s2) ∈ devsCollect entries)
    (ha1 : (a1, u1) ∈ afsCollect entries) (ha2 : (a2, u2) ∈ afsCollect entries)
    (hp1 : (p1, v1) ∈ gpiosCollect entries) (hp2 : (p2, v2) ∈ gpiosCollect entries)
    (hi1 : (i1, w1) ∈ ioTraitsCollect entries) (hi2 : (i2, w2) ∈ ioTraitsCollect entries) :
    sameGroupB (setMemB cmpSS) (devsGrouped entries) d1 d2 = setEqB cmpSS s1 s2
    ∧ sameGroupB (setMemB cmpSS) (afsGrouped entries) a1 a2 = setEqB cmpSS u1 u2
    ∧ sameGroupB gpioMemB (gpiosGrouped entries) p1 p2 = setEqB cmpSS v1 v2
    ∧ sameGroupB (setMemB cmpIor) (ioTraitsGrouped entries) i1 i2 = setEqB cmpSS w1 w2
    ∧ (setEqB cmpSS s1 s2 = false →
        sameGroupB (setMemB cmpSS) (devsGrouped entries) d1 d2 = false) := by
  have hdevs : sameGroupB (setMemB cmpSS) (devsGrouped entries) d1 d2 = setEqB cmpSS s1 s2 :=
    groupFold_sameGroup (fun a b => setEqB_symm cmpSS_lawEq a b)
      (setEqB_trans cmpSS_lawEq) (setEqB_refl cmpSS_lawEq)
      (setMemB_insert cmpSS_lawEq)
      (fun k => (rfl : setMemB cmpSS k ([] : AfTreeMcus) = false))
      (devsCollect entries) (devsCollect_keys_nodup entries) d1 d2 s1 s2 hd1 hd2
  refine ⟨hdevs, ?_, ?_, ?_, ?_⟩
  · exact groupFold_sameGroup (fun a b => setEqB_symm cmpSS_lawEq a b)
      (setEqB_trans cmpSS_lawEq) (setEqB_refl cmpSS_lawEq)
      (setMemB_insert cmpSS_lawEq)
      (fun k => (rfl : setMemB cmpSS k ([] : AfTreeMcus) = false))
      (afsCollect entries) (afsCollect_keys_nodup entries) a1 a2 u1 u2 ha1 ha2
  · exact groupFold_sameGroup (fun a b => setEqB_symm cmpSS_lawEq a b)
      (setEqB_trans cmpSS_lawEq) (setEqB_refl cmpSS_lawEq)
      gpioMemB_ins
      (fun k => (rfl : gpioMemB k [] = false))
      (gpiosCollect entries) (gpiosCollect_keys_nodup entries) p1 p2 v1 v2 hp1 hp2
  · exact groupFold_sameGroup (fun a b => setEqB_symm cmpSS_lawEq a b)
      (setEqB_trans cmpSS_lawEq) (setEqB_refl cmpSS_lawEq)
      (setMemB_insert cmpIor_lawEq)
      (fun k => (rfl : setMemB cmpIor k ([] : List (SortedString × String)) = false))
      (ioTraitsCollect entries) (ioTraitsCollect_keys_nodup entries) i1 i2 w1 w2 hi1 hi2
  · intro hne
    rw [hdevs, hne]

def entriesW : List (SortedString × AfTreeDevs) :=
  [(⟨"USART"⟩,
    [(⟨"USART1"⟩,
      [((⟨"AF7"⟩, ⟨"TX"⟩),
        ("PinTx", [(("PA", 9), ([⟨"PA9"⟩], [(⟨"g"⟩, [(⟨"v"⟩, [⟨"m1"⟩])])]))]))]),
     (⟨"USART2"⟩,
      [((⟨"AF3"⟩, ⟨"RX"⟩),
        ("PinRx", [(("PB", 10), ([⟨"PB10"⟩], [(⟨"g"⟩, [(⟨"v"⟩, [⟨"m2"⟩])])]))]))])])]


/-- C6 witness: in the demo tree, `USART1` (mcus `{m1}`) and `USART2`
(mcus `{m2}`) land in distinct groups in every view, matching the inequality
of their collected sets. -/
theorem combine_grouping_exact_set_equality_witness :
    sameGroupB (setMemB cmpSS) (devsGrouped entriesW) ⟨"USART1"⟩ ⟨"USART2"⟩
        = setEqB cmpSS [⟨"m1"⟩] [⟨"m2"⟩]
    ∧ sameGroupB (setMemB cmpSS) (afsGrouped entriesW) ⟨"AF7"⟩ ⟨"AF3"⟩
        = setEqB cmpSS [⟨"m1"⟩] [⟨"m2"⟩]
    ∧ sameGroupB gpioMemB (gpiosGrouped entriesW) ("PA", 9) ("PB", 10)
        = setEqB cmpSS [⟨"m1"⟩] [⟨"m2"⟩]
    ∧ sameGroupB (setMemB cmpIor) (ioTraitsGrouped entriesW) (⟨"PinTx"⟩, "TX") (⟨"PinRx"⟩, "RX")
        = setEqB cmpSS [⟨"m1"⟩] [⟨"m2"⟩]
    ∧ (setEqB cmpSS [⟨"m1"⟩] [⟨"m2"⟩] = false →
        sameGroupB (setMemB cmpSS) (devsGrouped entriesW) ⟨"USART1"⟩ ⟨"USART2"⟩ = false) :=
  combine_grouping_exact_set_equality entriesW
    ⟨"USART1"⟩ ⟨"USART2"⟩ [⟨"m1"⟩] [⟨"m2"⟩]
    ⟨"AF7"⟩ ⟨"AF3"⟩ [⟨"m1"⟩] [⟨"m2"⟩]
    ("PA", 9) ("PB", 10) [⟨"m1"⟩] [⟨"m2"⟩]
    (⟨"PinTx"⟩, "TX") (⟨"PinRx"⟩, "RX") [⟨"m1"⟩] [⟨"m2"⟩]
    (by decide) (by decide) (by decide) (by decide)
    (by decide) (by decide) (by decide) (by decide)
